import Mathlib

/-!
# Verification of the peak/crest extraction and cache-merge engine

Shallow embedding of the core algorithms of the `sea_bright_test` repository:

* the crest-anchored high-event builder (`buildCrestAnchoredHighEvents` in
  `src/unnamed/part_000` and in the Sea Bright half of
  `src/tools/update_peaks_navd88.js`),
* the cache merge engine (`main` of the same scripts),
* the local-maxima detector (`findPeaks` of
  `src/tools /update_seabright_peaks_navd88.js`) and the declustering
  detector (`declusterMax` of the first half of
  `src/tools/update_peaks_navd88.js`),
* the normalization helpers (`uniqSortByTime`, the de-dup step of
  `extractPoints`).

Modelling conventions:

* instants are epoch milliseconds (`Int`), the value of
  `new Date(iso).getTime()`;
* water-level values are rationals (`ℚ`); JavaScript numbers that may fail
  `Number.isFinite` (NaN, ±Infinity) are modelled as `Option ℚ` with `none`
  for a non-finite value, in exactly the places where the source guards
  with `Number.isFinite`;
* `Array.prototype.sort` with comparator `(a, b) => a.t - b.t` is a stable
  sort producing a list sorted by `t`; it is modelled by `List.mergeSort`,
  which is a stable sort, and a stable sort of a list under a total
  preorder is unique, so this is the same function.
-/

namespace SeaBright

/-- The classification ladder result, the strings
`"Below" | "Minor" | "Moderate" | "Major"` of `classifyNAVD`. -/
inductive FloodType
  | below
  | minor
  | moderate
  | major
deriving DecidableEq, Repr

/-- The `THRESH_NAVD88`-shaped record `{minorLow, moderateLow, majorLow}`. -/
structure Thresholds where
  minorLow : ℚ
  moderateLow : ℚ
  majorLow : ℚ
deriving DecidableEq, Repr

/-- The classifier `classifyNAVD(ft, T)` from `src/unnamed/part_000` lines 113-119:
top-down ladder, `>=` comparisons. -/
def classifyNAVD (ft : ℚ) (T : Thresholds) : FloodType :=
  if ft ≥ T.majorLow then .major
  else if ft ≥ T.moderateLow then .moderate
  else if ft ≥ T.minorLow then .minor
  else .below

/-- The rounding helper `roundFt(x) = Math.round(x * 1000) / 1000`; `Math.round` is
round-half-up, i.e. `⌊x + 1/2⌋`. -/
def roundFt (x : ℚ) : ℚ :=
  (⌊x * 1000 + 1/2⌋ : ℚ) / 1000

/-- One observed sample `{t, ft}` of the USGS series: timestamp in epoch ms
and water level in feet.  (`fetchUSGSIV` filters with `Number.isFinite(ft)`,
so series values are always finite.) -/
structure Sample where
  t : Int
  ft : ℚ
deriving DecidableEq, Repr

/-- A cache event
`{ t, ft, type, crest, kind }` as produced by the builder and stored in
`cache.events`.  `ft` is `Option ℚ` because the merge engine guards stored
values with `Number.isFinite`. -/
structure Event where
  t : Int
  ft : Option ℚ
  type : FloodType
  crest : Int
  kind : String
deriving DecidableEq, Repr

/-- The constant `CREST_WINDOW_HOURS = 2` (src/unnamed/part_000 line 44). -/
def CREST_WINDOW_HOURS : Int := 2

/-- The constant `REQUIRE_WITHIN_HOURS = 1` (src/unnamed/part_000 line 45). -/
def REQUIRE_WITHIN_HOURS : Int := 1

/-- The outer window `w2 = CREST_WINDOW_HOURS * 3600 * 1000` (line 214). -/
def w2 : Int := CREST_WINDOW_HOURS * 3600 * 1000

/-- The inner window `w1 = REQUIRE_WITHIN_HOURS * 3600 * 1000` (line 215). -/
def w1 : Int := REQUIRE_WITHIN_HOURS * 3600 * 1000

/-- The sort order of `.sort((a, b) => new Date(a.t) - new Date(b.t))`:
non-decreasing timestamps. -/
def Sample.tle (a b : Sample) : Prop := a.t ≤ b.t

instance : DecidableRel Sample.tle := fun a b => Int.decLe a.t b.t

instance : IsTotal Sample Sample.tle := ⟨fun a b => Int.le_total a.t b.t⟩

instance : IsTrans Sample Sample.tle := ⟨fun _ _ _ h1 h2 => le_trans h1 h2⟩

/-- Stable sort of samples by `t`, the model of
`[...series].sort((a, b) => new Date(a.t) - new Date(b.t))`.
JavaScript's `Array.prototype.sort` is stable and a stable sort under a
total preorder is unique, so any stable sort denotes it; insertion sort is
used because the kernel can evaluate it on concrete inputs. -/
def sortSamplesByT (l : List Sample) : List Sample :=
  l.insertionSort Sample.tle

/-- The running-max accumulator of the inner scan:
`if (!best || pts[i].ft > best.ft) best = pts[i]` (line 246). -/
def bestOf (b : Option Sample) (p : Sample) : Option Sample :=
  match b with
  | none => some p
  | some q => if p.ft > q.ft then some p else some q

/-- The inner scan of `buildCrestAnchoredHighEvents` (lines 238-248): walk
the samples from the left pointer until `t > crest + w2`, tracking the
`hasWithin1h` flag (`dt ≤ w1`) and the maximum-valued sample seen. -/
def scanGo (crestMs : Int) : List Sample → Bool → Option Sample → Bool × Option Sample
  | [], hasW, best => (hasW, best)
  | p :: rest, hasW, best =>
    if p.t > crestMs + w2 then (hasW, best)
    else scanGo crestMs rest (hasW || decide (|p.t - crestMs| ≤ w1)) (bestOf best p)

/-- The emitted event (lines 254-261): observed time of the window max,
rounded value, classification, crest time as stable key, kind. -/
def mkCrestEvent (crestMs : Int) (best : Sample) (T : Thresholds) : Event :=
  { t := best.t
    ft := some (roundFt best.ft)
    type := classifyNAVD best.ft T
    crest := crestMs
    kind := "CrestHigh" }

/-- The crest loop of `buildCrestAnchoredHighEvents` (lines 222-262).  The
monotone left pointer over the sorted sample array is modelled by keeping
the suffix of the samples from the left pointer onwards: the per-crest
advance `while (pts[left].t < crestMs - w2) left++` is `List.dropWhile`,
and the suffix is threaded into the recursive call for the later crests. -/
def buildGo (T : Thresholds) : List Int → List Sample → List Event
  | [], _ => []
  | c :: ms, pts =>
    let pts1 := pts.dropWhile (fun p => decide (p.t < c - w2))
    let r := scanGo c pts1 false none
    let rest := buildGo T ms pts1
    if r.1 then
      match r.2 with
      | some best => mkCrestEvent c best T :: rest
      | none => rest
    else rest

/-- The builder `buildCrestAnchoredHighEvents({series, predictedHighs, thresholdsNAVD88})`
(src/unnamed/part_000 lines 210-265).  Crest marks carry only their
timestamp, so `predictedHighs` is the list of crest instants.  The empty
guards are the early returns of lines 211-212 (the Sea Bright variant in
`src/tools/update_peaks_navd88.js` omits them, but on an empty input its
loops produce `[]` as well, so both scripts denote this function). -/
def buildCrestAnchoredHighEvents (series : List Sample) (predictedHighs : List Int)
    (T : Thresholds) : List Event :=
  if series.isEmpty then []
  else if predictedHighs.isEmpty then []
  else buildGo T predictedHighs (sortSamplesByT series)

/-! ### C3: the inner-window coverage gate -/

theorem scanGo_hasW_exists (c : Int) :
    ∀ (ps : List Sample) (h : Bool) (b : Option Sample),
      (scanGo c ps h b).1 = true → h = true ∨ ∃ p ∈ ps, |p.t - c| ≤ w1 := by
  intro ps
  induction ps with
  | nil => intro h b hres; exact Or.inl hres
  | cons p rest ih =>
    intro h b hres
    rw [scanGo] at hres
    by_cases hgt : p.t > c + w2
    · rw [if_pos hgt] at hres
      exact Or.inl hres
    · rw [if_neg hgt] at hres
      rcases ih _ _ hres with hor | ⟨q, hq, hqw⟩
      · rcases Bool.or_eq_true_iff.mp hor with h1 | h2
        · exact Or.inl h1
        · exact Or.inr ⟨p, List.mem_cons_self _ _, of_decide_eq_true h2⟩
      · exact Or.inr ⟨q, List.mem_cons_of_mem _ hq, hqw⟩

theorem buildGo_coverage (T : Thresholds) (c : Int) :
    ∀ (ms : List Int) (pts : List Sample),
      (∀ p ∈ pts, ¬ |p.t - c| ≤ w1) →
      ∀ e ∈ buildGo T ms pts, e.crest ≠ c := by
  intro ms
  induction ms with
  | nil => intro pts _ e he; simp [buildGo] at he
  | cons c0 ms ih =>
    intro pts hno e he
    rw [buildGo] at he
    set pts1 := pts.dropWhile (fun p => decide (p.t < c0 - w2)) with hpts1
    have hsub : ∀ p ∈ pts1, p ∈ pts := fun p hp =>
      (List.dropWhile_sublist _).subset hp
    have hno1 : ∀ p ∈ pts1, ¬ |p.t - c| ≤ w1 := fun p hp => hno p (hsub p hp)
    by_cases hw : (scanGo c0 pts1 false none).1 = true
    · rw [if_pos hw] at he
      cases hbest : (scanGo c0 pts1 false none).2 with
      | none => rw [hbest] at he; exact ih pts1 hno1 e he
      | some best =>
        rw [hbest] at he
        rcases List.mem_cons.mp he with rfl | htail
        · -- the head event has crest `c0`; if `c0 = c` the scan found a
          -- within-`w1` sample, contradicting `hno1`
          intro hcc
          simp only [mkCrestEvent] at hcc
          subst hcc
          rcases scanGo_hasW_exists _ pts1 false none hw with hfalse | ⟨p, hp, hpw⟩
          · exact Bool.false_ne_true hfalse
          · exact hno1 p hp hpw
        · exact ih pts1 hno1 e htail
    · rw [if_neg hw] at he
      exact ih pts1 hno1 e he

/-- C3: for a crest with zero samples within the inner window `w1`, no
event keyed to that crest is emitted, even when samples lie within the
outer window `w2`. -/
theorem crest_coverage_gate (T : Thresholds) (series : List Sample)
    (predictedHighs : List Int) (c : Int)
    (hno : ∀ p ∈ series, ¬ |p.t - c| ≤ w1) :
    ∀ e ∈ buildCrestAnchoredHighEvents series predictedHighs T, e.crest ≠ c := by
  intro e he
  rw [buildCrestAnchoredHighEvents] at he
  by_cases hs : series.isEmpty
  · rw [if_pos hs] at he; exact absurd he (List.not_mem_nil e)
  · rw [if_neg hs] at he
    by_cases hm : predictedHighs.isEmpty
    · rw [if_pos hm] at he; exact absurd he (List.not_mem_nil e)
    · rw [if_neg hm] at he
      have hperm : ∀ p ∈ sortSamplesByT series, p ∈ series := by
        intro p hp
        exact (List.perm_insertionSort Sample.tle series).subset hp
      exact buildGo_coverage T c predictedHighs (sortSamplesByT series)
        (fun p hp => hno p (hperm p hp)) e he

/-- Concrete instance of the coverage gate: a single sample 10 hours from
the crest (inside no window) and a crest mark at 36000000 ms. -/
theorem crest_coverage_gate_witness :
    (∀ p ∈ [Sample.mk 0 1], ¬ |p.t - 36000000| ≤ w1) ∧
    (∀ e ∈ buildCrestAnchoredHighEvents [Sample.mk 0 1] [36000000]
        (Thresholds.mk (31/10) (41/10) (51/10)), e.crest ≠ 36000000) :=
  ⟨by decide, crest_coverage_gate _ _ _ _ (by decide)⟩

/-! ### The cache merge engine (`main` of `src/unnamed/part_000`, lines 270-403,
and of the Sea Bright variant in `src/tools/update_peaks_navd88.js`) -/

/-- The keep-best update guard of the merge loop (lines 372-377):
`!Number.isFinite(prevFt) || (Number.isFinite(newFt) && newFt > prevFt)`.
`none` models a non-finite stored value. -/
def shouldUpdate (prevFt newFt : Option ℚ) : Bool :=
  match prevFt with
  | none => true
  | some p =>
    match newFt with
    | none => false
    | some q => decide (q > p)

/-- The `byCrest` map (lines 351-355): built by `byCrest.set(String(e.crest), e)`
over the array in order, so a later element with the same key overwrites an
earlier one; `byCrest.get(key)` therefore returns the last element of the
array whose `crest` equals the key.  `String(ms-instant)` is injective, so the
string key is modelled by the instant itself. -/
def lookupLast (l : List Event) (k : Int) : Option Event :=
  l.foldl (fun acc e => if e.crest = k then some e else acc) none

/-- Replace the first element with the given crest key. -/
def replaceFirstByCrest : List Event → Int → Event → List Event
  | [], _, _ => []
  | e :: es, k, v => if e.crest = k then v :: es else e :: replaceFirstByCrest es k v

/-- In-place update of the event the `byCrest` map points to (lines 378-383:
`prev.t = e.t; prev.ft = e.ft; prev.type = e.type; prev.kind = e.kind;
prev.crest = e.crest` — every field, i.e. the stored record is replaced by
`e`).  The map points to the last array element with that key, and the
element keeps its array position. -/
def replaceLastByCrest (l : List Event) (k : Int) (v : Event) : List Event :=
  (replaceFirstByCrest l.reverse k v).reverse

/-- One iteration of the merge loop (lines 360-385): insert when the key is
absent (push to the array), otherwise apply the keep-best rule in place. -/
def mergeStep (acc : List Event) (e : Event) : List Event :=
  match lookupLast acc e.crest with
  | none => acc ++ [e]
  | some prev => if shouldUpdate prev.ft e.ft then replaceLastByCrest acc e.crest e else acc

/-- The chronological order on events, by `t`. -/
def Event.tle (a b : Event) : Prop := a.t ≤ b.t

instance : DecidableRel Event.tle := fun a b => Int.decLe a.t b.t

instance : IsTotal Event Event.tle := ⟨fun a b => Int.le_total a.t b.t⟩

instance : IsTrans Event Event.tle := ⟨fun _ _ _ h1 h2 => le_trans h1 h2⟩

/-- The re-sort `existing.sort((a, b) => new Date(a.t) - new Date(b.t))` (line 388),
stable, modelled like `sortSamplesByT`. -/
def sortEventsByT (l : List Event) : List Event :=
  l.insertionSort Event.tle

/-- The merge engine: fold the fresh batch into the existing events, then
re-sort chronologically (lines 349-389). -/
def mergeEvents (existing batch : List Event) : List Event :=
  sortEventsByT (batch.foldl mergeStep existing)

/-- The persisted cache, restricted to the fields the core reads or writes:
`method`, `thresholdsNAVD88`, `lastProcessedISO` (epoch ms; `none` when the
field is absent) and `events`. -/
structure Cache where
  method : String
  thresholds : Option Thresholds
  lastProcessedMs : Option Int
  events : List Event
deriving DecidableEq, Repr

/-- The method tag `METHOD = "crest_anchored_highs_v1"` (src/unnamed/part_000 line 48). -/
def METHOD : String := "crest_anchored_highs_v1"

/-- The method tag `METHOD = "crest_anchored_highs_v1_seabright"`
(`src/tools/update_peaks_navd88.js` line 264). -/
def METHOD_SEABRIGHT : String := "crest_anchored_highs_v1_seabright"

/-- The method-change reset of `src/unnamed/part_000` lines 287-293:
`if (cache.method !== METHOD) { cache.method = METHOD; cache.events = []; }`,
leaving `lastProcessedISO` as-is. -/
def applyMethodReset (c : Cache) : Cache :=
  if c.method ≠ METHOD then { c with method := METHOD, events := [] } else c

/-- The constant `THRESH_NAVD88 = {minorLow: 3.10, moderateLow: 4.10, majorLow: 5.10}`
(`src/tools/update_peaks_navd88.js` lines 248-252). -/
def THRESH_NAVD88_SEABRIGHT : Thresholds :=
  { minorLow := 31/10, moderateLow := 41/10, majorLow := 51/10 }

/-- The cache-metadata assignments of the Sea Bright variant
(`src/tools/update_peaks_navd88.js` lines 462-468): `cache.method = METHOD`
and `cache.thresholdsNAVD88 = THRESH_NAVD88` are set unconditionally and
`cache.events` is never cleared — there is no method-change guard in this
script. -/
def setCacheMetaSeabright (c : Cache) : Cache :=
  { c with method := METHOD_SEABRIGHT, thresholds := some THRESH_NAVD88_SEABRIGHT }

/-- The invocation mode (src/unnamed/part_000 lines 295-323): default
incremental (parameterized by the wall clock `now`), or an explicit
single-year / year-range backfill. -/
inductive Mode
  | incremental (nowMs : Int)
  | backfillYear (y : Int)
  | backfillRange (y1 y2 : Int)

/-- Civil days from 1970-01-01 to `y`-01-01 (the value of
`Date.UTC(y, 0, 1) / 86400000`), via the standard days-from-civil
computation; used only for `y ≥ 1900`, where every division is of
non-negative numbers. -/
def daysBeforeYear (y : Int) : Int :=
  let yy := y - 1
  let era := yy / 400
  let yoe := yy - era * 400
  era * 146097 + (yoe * 365 + yoe / 4 - yoe / 100 + 306) - 719468

/-- The instant `new Date(Date.UTC(y, 0, 1, 0, 0, 0)).getTime()` in epoch ms. -/
def yearStartMs (y : Int) : Int :=
  daysBeforeYear y * 86400000

/-- The constant `BUFFER_HOURS = 12` (src/unnamed/part_000 line 41). -/
def BUFFER_HOURS : Int := 12

/-- The default of `cache.lastProcessedISO || "2000-01-01T00:00:00Z"` (line 318):
the default lower bound, 2000-01-01 in epoch ms. -/
def DEFAULT_LAST_MS : Int := 946684800000

/-- The window/mode selection (src/unnamed/part_000 lines 299-323): `none`
models `die` on invalid backfill bounds; otherwise the `[startISO, endISO]`
pair in epoch ms. -/
def windowOf (c : Cache) (m : Mode) : Option (Int × Int) :=
  match m with
  | .backfillYear y =>
    if y < 1900 ∨ y > 3000 then none
    else some (yearStartMs y, yearStartMs (y + 1))
  | .backfillRange y1 y2 =>
    if min y1 y2 < 1900 ∨ max y1 y2 > 3000 then none
    else some (yearStartMs (min y1 y2), yearStartMs (max y1 y2 + 1))
  | .incremental nowMs =>
    some (c.lastProcessedMs.getD DEFAULT_LAST_MS - BUFFER_HOURS * 3600 * 1000, nowMs)

/-- The update logic of `main` (src/unnamed/part_000 lines 270-403) after
the two fetches are abstracted as inputs (`series`, `predictedHighs`), in
source order: fatal missing thresholds, method reset, window/mode selection
(fatal on invalid bounds), the two empty-input short circuits (which return
without writing the cache file), build, merge, re-sort, and the
`lastProcessedISO` advance to the newest fetched series timestamp.  `none`
means the run wrote nothing (fatal error or short circuit); `some c'` is
the cache persisted by `saveJSON` at the end of a successful run. -/
def runMain (c0 : Cache) (m : Mode) (series : List Sample) (predictedHighs : List Int) :
    Option Cache :=
  match c0.thresholds with
  | none => none
  | some T =>
    let c := applyMethodReset c0
    match windowOf c m with
    | none => none
    | some _win =>
      if series.isEmpty then none
      else if predictedHighs.isEmpty then none
      else
        let crestHighs := buildCrestAnchoredHighEvents series predictedHighs T
        let evs := mergeEvents c.events crestHighs
        let last := match series.getLast? with
          | some p => some p.t
          | none => c.lastProcessedMs
        some { c with events := evs, lastProcessedMs := last }

/-! ### C2: method-change reset -/

/-- A cache stored under a foreign method tag, holding one event. -/
def cacheC2 : Cache :=
  { method := "legacy_decluster_v0"
    thresholds := some THRESH_NAVD88_SEABRIGHT
    lastProcessedMs := some 1700000000000
    events := [{ t := 0, ft := some 2, type := .below, crest := 0, kind := "CrestHigh" }] }

/-- C2: the engine of `src/unnamed/part_000` clears `events`, sets the
method tag and leaves `lastProcessedISO` untouched on a method change; the
Sea Bright variant of the same engine
(`src/tools/update_peaks_navd88.js` lines 462-468) sets its method tag on
the same cache without clearing `events`, contradicting the documented
method-versioning behaviour. -/
theorem method_change_reset_divergence :
    ((applyMethodReset cacheC2).events = [] ∧
     (applyMethodReset cacheC2).method = METHOD ∧
     (applyMethodReset cacheC2).lastProcessedMs = cacheC2.lastProcessedMs) ∧
    (cacheC2.method ≠ METHOD_SEABRIGHT ∧
     (setCacheMetaSeabright cacheC2).method = METHOD_SEABRIGHT ∧
     (setCacheMetaSeabright cacheC2).events = cacheC2.events ∧
     (setCacheMetaSeabright cacheC2).events ≠ []) := by
  decide

/-! ### C5: `lastProcessedISO` after a backfill run -/

/-- A valid cache under the current method, with no `lastProcessedISO`. -/
def cacheC5 : Cache :=
  { method := METHOD
    thresholds := some { minorLow := 3, moderateLow := 4, majorLow := 5 }
    lastProcessedMs := none
    events := [] }

/-- C5 counterexample: a `--backfill-year=2000` run whose fetched series
ends at 2000-01-01T00:00:00Z (946684800000 ms).  The requested window end
is 2001-01-01T00:00:00Z (978307200000 ms), but the persisted
`lastProcessedISO` is the newest series timestamp, not the window end. -/
theorem backfill_lastProcessed_counterexample :
    windowOf cacheC5 (Mode.backfillYear 2000) = some (946684800000, 978307200000) ∧
    (runMain cacheC5 (Mode.backfillYear 2000) [{ t := 946684800000, ft := 1 }] [0]).map
        Cache.lastProcessedMs = some (some 946684800000) ∧
    (946684800000 : Int) ≠ 978307200000 := by
  decide

/-- C5 amended: every successful run — backfill or incremental — sets
`lastProcessedISO` to the newest timestamp of the fetched observation
series (`src/unnamed/part_000` lines 391-393), never to the requested
window end. -/
theorem lastProcessed_eq_newest_series (c : Cache) (m : Mode) (series : List Sample)
    (predictedHighs : List Int) (c' : Cache)
    (h : runMain c m series predictedHighs = some c') :
    ∃ p, series.getLast? = some p ∧ c'.lastProcessedMs = some p.t := by
  rw [runMain] at h
  cases hT : c.thresholds with
  | none => rw [hT] at h; exact absurd h (by simp)
  | some T =>
    rw [hT] at h
    simp only at h
    cases hw : windowOf (applyMethodReset c) m with
    | none => rw [hw] at h; exact absurd h (by simp)
    | some win =>
      rw [hw] at h
      simp only at h
      by_cases hs : series.isEmpty
      · rw [if_pos hs] at h; exact absurd h (by simp)
      · rw [if_neg hs] at h
        by_cases hp : predictedHighs.isEmpty
        · rw [if_pos hp] at h; exact absurd h (by simp)
        · rw [if_neg hp] at h
          have hne : series ≠ [] := fun hnil => hs (by rw [hnil]; rfl)
          cases hlast : series.getLast? with
          | none =>
            exact absurd (List.getLast?_isSome.mpr hne) (by rw [hlast]; simp)
          | some p =>
            refine ⟨p, rfl, ?_⟩
            rw [hlast] at h
            have := Option.some_injective _ h
            rw [← this]

/-- Concrete instance of the amended C5 statement. -/
def resultC5 : Cache :=
  { method := METHOD
    thresholds := some { minorLow := 3, moderateLow := 4, majorLow := 5 }
    lastProcessedMs := some 946684800000
    events := [] }

theorem lastProcessed_eq_newest_series_witness :
    ∃ p, [Sample.mk 946684800000 1].getLast? = some p ∧
      resultC5.lastProcessedMs = some p.t :=
  lastProcessed_eq_newest_series cacheC5 (Mode.backfillYear 2000)
    [{ t := 946684800000, ft := 1 }] [0] resultC5 (by decide)

/-! ### C4: keep-best, counterexample part -/

/-- The stored value at a key: the `ft` of the event the `byCrest` lookup
returns. -/
def storedFtAt (l : List Event) (k : Int) : Option (Option ℚ) :=
  (lookupLast l k).map Event.ft

/-- Batch event with value 3.0 at key 555. -/
def evA : Event := { t := 1000, ft := some 3, type := .below, crest := 555, kind := "CrestHigh" }

/-- Batch event with value 3.4 (the canonical rational `17/5`) at key 555. -/
def evB : Event := { t := 2000, ft := some (Rat.mk' 17 5), type := .minor, crest := 555, kind := "CrestHigh" }

/-- A cache already holding key 555 with the larger value 5.0. -/
def cacheEventsC4 : List Event :=
  [{ t := 0, ft := some 5, type := .minor, crest := 555, kind := "CrestHigh" }]

/-- C4 counterexample: against a cache already holding value 5.0 at the
shared key, merging the 3.0/3.4 pair — in either order, in one batch or
across two merges — leaves 5.0 stored, not 3.4. -/
theorem keep_best_counterexample :
    storedFtAt (mergeEvents cacheEventsC4 [evA, evB]) 555 ≠ some evB.ft ∧
    storedFtAt (mergeEvents cacheEventsC4 [evB, evA]) 555 ≠ some evB.ft ∧
    storedFtAt (mergeEvents (mergeEvents cacheEventsC4 [evA]) [evB]) 555 ≠ some evB.ft ∧
    storedFtAt (mergeEvents (mergeEvents cacheEventsC4 [evB]) [evA]) 555 ≠ some evB.ft ∧
    evB.ft = some (17/5) := by
  have h45 : evB.ft = some (17/5) := by
    show some (Rat.mk' 17 5) = some (17/5)
    rw [Rat.mk'_eq_divInt, Rat.divInt_eq_div]
    norm_num
  exact ⟨by decide, by decide, by decide, by decide, h45⟩

/-! ### C1: idempotence of the merge -/

/-- The cache invariant of the data model: `events` unique by key. -/
def keysNodup (l : List Event) : Prop := (l.map Event.crest).Nodup

instance (l : List Event) : Decidable (keysNodup l) :=
  inferInstanceAs (Decidable (l.map Event.crest).Nodup)

theorem lookupLast_aux (k : Int) :
    ∀ (l : List Event) (acc : Option Event),
      l.foldl (fun acc e => if e.crest = k then some e else acc) acc
        = (l.reverse.find? (fun e => e.crest == k)).or acc := by
  intro l
  induction l with
  | nil => intro acc; simp
  | cons e es ih =>
    intro acc
    rw [List.foldl_cons, ih, List.reverse_cons, List.find?_append, Option.or_assoc]
    by_cases hc : e.crest = k
    · have hb : (e.crest == k) = true := by simpa using hc
      simp [List.find?, hb, hc]
    · have hb : (e.crest == k) = false := by simpa using hc
      simp [List.find?, hb, hc]

theorem lookupLast_eq_find? (l : List Event) (k : Int) :
    lookupLast l k = l.reverse.find? (fun e => e.crest == k) := by
  rw [lookupLast, lookupLast_aux, Option.or_none]

theorem lookupLast_eq_none_iff (l : List Event) (k : Int) :
    lookupLast l k = none ↔ ∀ e ∈ l, e.crest ≠ k := by
  rw [lookupLast_eq_find?, List.find?_eq_none]
  constructor
  · intro h e he
    have := h e (List.mem_reverse.mpr he)
    simpa using this
  · intro h e he
    have := h e (List.mem_reverse.mp he)
    simpa using this

theorem lookupLast_mem {l : List Event} {k : Int} {w : Event}
    (h : lookupLast l k = some w) : w ∈ l ∧ w.crest = k := by
  rw [lookupLast_eq_find?] at h
  refine ⟨List.mem_reverse.mp (List.mem_of_find?_eq_some h), ?_⟩
  have := List.find?_some h
  simpa using this

theorem lookupLast_unique {l : List Event} {k : Int} {w : Event}
    (hk : keysNodup l) (hw : w ∈ l) (hc : w.crest = k) :
    lookupLast l k = some w := by
  cases h : lookupLast l k with
  | none => exact absurd hc ((lookupLast_eq_none_iff l k).mp h w hw)
  | some u =>
    obtain ⟨hu, huc⟩ := lookupLast_mem h
    have : u = w := List.inj_on_of_nodup_map hk hu hw (by rw [huc, hc])
    rw [this]

theorem lookupLast_append_single (l : List Event) (k : Int) (v : Event) :
    lookupLast (l ++ [v]) k = if v.crest = k then some v else lookupLast l k := by
  rw [lookupLast, List.foldl_append]
  by_cases hc : v.crest = k
  · simp [lookupLast, hc]
  · simp [lookupLast, hc]

theorem replaceFirst_find?_eq {k : Int} {v : Event} (hv : v.crest = k) :
    ∀ (m : List Event), (∃ w ∈ m, w.crest = k) →
      (replaceFirstByCrest m k v).find? (fun e => e.crest == k) = some v := by
  intro m
  induction m with
  | nil => rintro ⟨w, hw, -⟩; exact absurd hw (List.not_mem_nil w)
  | cons e es ih =>
    rintro ⟨w, hw, hwc⟩
    rw [replaceFirstByCrest]
    by_cases hc : e.crest = k
    · rw [if_pos hc]
      simp [List.find?, hv]
    · rw [if_neg hc]
      have hmem : ∃ w ∈ es, w.crest = k := by
        rcases List.mem_cons.mp hw with rfl | hes
        · exact absurd hwc hc
        · exact ⟨w, hes, hwc⟩
      simp only [List.find?]
      have : (e.crest == k) = false := by simpa using hc
      rw [this]
      exact ih hmem

theorem replaceFirst_find?_ne {k k' : Int} {v : Event} (hv : v.crest = k) (hne : k' ≠ k) :
    ∀ (m : List Event),
      (replaceFirstByCrest m k v).find? (fun e => e.crest == k')
        = m.find? (fun e => e.crest == k') := by
  intro m
  induction m with
  | nil => rfl
  | cons e es ih =>
    rw [replaceFirstByCrest]
    by_cases hc : e.crest = k
    · rw [if_pos hc]
      have hv' : (v.crest == k') = false := by
        simp only [beq_eq_false_iff_ne, ne_eq]
        rw [hv]; exact fun h => hne h.symm
      have he' : (e.crest == k') = false := by
        simp only [beq_eq_false_iff_ne, ne_eq]
        rw [hc]; exact fun h => hne h.symm
      simp only [List.find?, hv', he']
    · rw [if_neg hc]
      simp only [List.find?]
      cases hpe : (e.crest == k')
      · exact ih
      · rfl

theorem replaceFirst_map_crest {k : Int} {v : Event} (hv : v.crest = k) :
    ∀ (m : List Event),
      (replaceFirstByCrest m k v).map Event.crest = m.map Event.crest := by
  intro m
  induction m with
  | nil => rfl
  | cons e es ih =>
    rw [replaceFirstByCrest]
    by_cases hc : e.crest = k
    · rw [if_pos hc]
      simp only [List.map_cons]
      rw [hv, hc]
    · rw [if_neg hc]
      simp only [List.map_cons, ih]

theorem lookupLast_replaceLast_same {l : List Event} {k : Int} {v : Event}
    (hv : v.crest = k) (hex : ∃ w ∈ l, w.crest = k) :
    lookupLast (replaceLastByCrest l k v) k = some v := by
  rw [lookupLast_eq_find?, replaceLastByCrest, List.reverse_reverse]
  refine replaceFirst_find?_eq hv l.reverse ?_
  obtain ⟨w, hw, hwc⟩ := hex
  exact ⟨w, List.mem_reverse.mpr hw, hwc⟩

theorem lookupLast_replaceLast_ne {l : List Event} {k k' : Int} {v : Event}
    (hv : v.crest = k) (hne : k' ≠ k) :
    lookupLast (replaceLastByCrest l k v) k' = lookupLast l k' := by
  rw [lookupLast_eq_find?, replaceLastByCrest, List.reverse_reverse,
    replaceFirst_find?_ne hv hne, ← lookupLast_eq_find?]

theorem replaceLast_map_crest {l : List Event} {k : Int} {v : Event} (hv : v.crest = k) :
    (replaceLastByCrest l k v).map Event.crest = l.map Event.crest := by
  rw [replaceLastByCrest, List.map_reverse, replaceFirst_map_crest hv,
    List.map_reverse, List.reverse_reverse]

theorem mergeStep_of_absent {l : List Event} {e : Event}
    (h : lookupLast l e.crest = none) : mergeStep l e = l ++ [e] := by
  rw [mergeStep, h]

theorem mergeStep_of_present {l : List Event} {e prev : Event}
    (h : lookupLast l e.crest = some prev) :
    mergeStep l e =
      if shouldUpdate prev.ft e.ft then replaceLastByCrest l e.crest e else l := by
  rw [mergeStep, h]

theorem mergeStep_keysNodup {l : List Event} (e : Event) (h : keysNodup l) :
    keysNodup (mergeStep l e) := by
  cases hlk : lookupLast l e.crest with
  | none =>
    have hnot : e.crest ∉ l.map Event.crest := by
      intro hmem
      obtain ⟨w, hw, hwc⟩ := List.mem_map.mp hmem
      exact (lookupLast_eq_none_iff l e.crest).mp hlk w hw hwc
    rw [mergeStep_of_absent hlk]
    show ((l ++ [e]).map Event.crest).Nodup
    rw [List.map_append]
    refine List.Nodup.append h (List.nodup_singleton _) ?_
    intro a ha hb
    simp only [List.map_cons, List.map_nil, List.mem_singleton] at hb
    subst hb
    exact hnot ha
  | some prev =>
    rw [mergeStep_of_present hlk]
    by_cases hu : shouldUpdate prev.ft e.ft = true
    · rw [if_pos hu]
      show keysNodup (replaceLastByCrest l e.crest e)
      unfold keysNodup
      rw [replaceLast_map_crest rfl]
      exact h
    · rw [if_neg hu]; exact h

theorem shouldUpdate_false {p : Option ℚ} {q : ℚ}
    (h : shouldUpdate p (some q) = false) : ∃ x, p = some x ∧ q ≤ x := by
  cases p with
  | none => exact absurd h (by rw [shouldUpdate]; simp)
  | some x =>
    refine ⟨x, rfl, ?_⟩
    rw [shouldUpdate] at h
    simpa using h

theorem shouldUpdate_true_of_some {p q : ℚ}
    (h : shouldUpdate (some p) q' = true) (hq : q' = some q) : p < q := by
  subst hq
  rw [shouldUpdate] at h
  simpa using h

theorem mergeStep_lookup_self {l : List Event} {e : Event} {q : ℚ} (hq : e.ft = some q) :
    ∃ R p, lookupLast (mergeStep l e) e.crest = some R ∧ R.ft = some p ∧ q ≤ p := by
  cases hlk : lookupLast l e.crest with
  | none =>
    rw [mergeStep_of_absent hlk]
    refine ⟨e, q, ?_, hq, le_refl q⟩
    rw [lookupLast_append_single, if_pos rfl]
  | some prev =>
    rw [mergeStep_of_present hlk]
    by_cases hu : shouldUpdate prev.ft e.ft = true
    · rw [if_pos hu]
      refine ⟨e, q, ?_, hq, le_refl q⟩
      obtain ⟨hmem, hcrest⟩ := lookupLast_mem hlk
      exact lookupLast_replaceLast_same rfl ⟨prev, hmem, hcrest⟩
    · rw [if_neg hu]
      rw [hq] at hu
      obtain ⟨x, hx, hxle⟩ := shouldUpdate_false (Bool.eq_false_iff.mpr hu)
      exact ⟨prev, x, hlk, hx, hxle⟩

theorem mergeStep_lookup_mono {l : List Event} {e : Event} {k : Int} {R : Event} {p : ℚ}
    (hl : lookupLast l k = some R) (hp : R.ft = some p) :
    ∃ R' p', lookupLast (mergeStep l e) k = some R' ∧ R'.ft = some p' ∧ p ≤ p' := by
  by_cases hk : k = e.crest
  · subst hk
    rw [mergeStep_of_present hl]
    by_cases hu : shouldUpdate R.ft e.ft = true
    · rw [if_pos hu]
      rw [hp] at hu
      cases hft : e.ft with
      | none => rw [hft] at hu; exact absurd hu (by rw [shouldUpdate]; simp)
      | some q =>
        refine ⟨e, q, ?_, hft, le_of_lt (shouldUpdate_true_of_some hu hft)⟩
        obtain ⟨hmem, hcrest⟩ := lookupLast_mem hl
        exact lookupLast_replaceLast_same rfl ⟨R, hmem, hcrest⟩
    · rw [if_neg hu]
      exact ⟨R, p, hl, hp, le_refl p⟩
  · cases hlk : lookupLast l e.crest with
    | none =>
      rw [mergeStep_of_absent hlk]
      refine ⟨R, p, ?_, hp, le_refl p⟩
      rw [lookupLast_append_single, if_neg (fun hc => hk hc.symm), hl]
    | some prev =>
      rw [mergeStep_of_present hlk]
      by_cases hu : shouldUpdate prev.ft e.ft = true
      · rw [if_pos hu]
        refine ⟨R, p, ?_, hp, le_refl p⟩
        rw [lookupLast_replaceLast_ne rfl hk, hl]
      · rw [if_neg hu]
        exact ⟨R, p, hl, hp, le_refl p⟩

theorem foldl_mergeStep_keysNodup (E : List Event) :
    ∀ l, keysNodup l → keysNodup (E.foldl mergeStep l) := by
  induction E with
  | nil => intro l h; exact h
  | cons x rest ih =>
    intro l h
    exact ih (mergeStep l x) (mergeStep_keysNodup x h)

theorem foldl_mergeStep_mono (E : List Event) :
    ∀ (l : List Event) (k : Int) (R : Event) (p : ℚ),
      lookupLast l k = some R → R.ft = some p →
      ∃ R' p', lookupLast (E.foldl mergeStep l) k = some R' ∧ R'.ft = some p' ∧ p ≤ p' := by
  induction E with
  | nil => intro l k R p h hp; exact ⟨R, p, h, hp, le_refl p⟩
  | cons x rest ih =>
    intro l k R p h hp
    obtain ⟨R1, p1, h1, hp1, hle1⟩ := mergeStep_lookup_mono (e := x) h hp
    obtain ⟨R2, p2, h2, hp2, hle2⟩ := ih (mergeStep l x) k R1 p1 h1 hp1
    exact ⟨R2, p2, h2, hp2, le_trans hle1 hle2⟩

theorem foldl_mergeStep_lookup (E : List Event) :
    ∀ (l : List Event), ∀ e ∈ E, ∀ q : ℚ, e.ft = some q →
      ∃ R p, lookupLast (E.foldl mergeStep l) e.crest = some R ∧ R.ft = some p ∧ q ≤ p := by
  induction E with
  | nil => intro l e he; exact absurd he (List.not_mem_nil e)
  | cons x rest ih =>
    intro l e he q hq
    rcases List.mem_cons.mp he with rfl | hrest
    · obtain ⟨R1, p1, h1, hp1, hle1⟩ := mergeStep_lookup_self (l := l) hq
      obtain ⟨R2, p2, h2, hp2, hle2⟩ :=
        foldl_mergeStep_mono rest (mergeStep l e) e.crest R1 p1 h1 hp1
      exact ⟨R2, p2, h2, hp2, le_trans hle1 hle2⟩
    · exact ih (mergeStep l x) e hrest q hq

theorem keysNodup_of_perm {l l' : List Event} (hperm : l.Perm l') (h : keysNodup l) :
    keysNodup l' :=
  ((hperm.map Event.crest).nodup_iff).mp h

theorem lookupLast_of_perm {l l' : List Event} (hperm : l.Perm l') (hnodup : keysNodup l)
    {k : Int} {R : Event} (h : lookupLast l k = some R) : lookupLast l' k = some R := by
  obtain ⟨hmem, hcrest⟩ := lookupLast_mem h
  exact lookupLast_unique (keysNodup_of_perm hperm hnodup) (hperm.subset hmem) hcrest

theorem mergeStep_fix {l : List Event} {e : Event} {R : Event} {q p : ℚ}
    (hq : e.ft = some q) (hl : lookupLast l e.crest = some R) (hR : R.ft = some p)
    (hle : q ≤ p) : mergeStep l e = l := by
  rw [mergeStep_of_present hl]
  have hfalse : shouldUpdate R.ft e.ft = false := by
    rw [hR, hq, shouldUpdate]
    simpa using not_lt.mpr hle
  rw [hfalse]
  simp

theorem foldl_mergeStep_fixpoint (E : List Event) :
    ∀ (l : List Event), (∀ e ∈ E, mergeStep l e = l) → E.foldl mergeStep l = l := by
  induction E with
  | nil => intro l _; rfl
  | cons x rest ih =>
    intro l h
    rw [List.foldl_cons, h x (List.mem_cons_self x rest)]
    exact ih l (fun e he => h e (List.mem_cons_of_mem x he))

/-- The core of C1: with a key-unique cache (the data-model invariant) and a
batch of finite-valued events, the merge is idempotent. -/
theorem mergeEvents_idem (ex E : List Event) (hex : keysNodup ex)
    (hfin : ∀ e ∈ E, e.ft.isSome) :
    mergeEvents (mergeEvents ex E) E = mergeEvents ex E := by
  have hFnodup : keysNodup (E.foldl mergeStep ex) := foldl_mergeStep_keysNodup E ex hex
  have hperm : (E.foldl mergeStep ex).Perm (mergeEvents ex E) :=
    (List.perm_insertionSort Event.tle (E.foldl mergeStep ex)).symm
  have hS1nodup : keysNodup (mergeEvents ex E) := keysNodup_of_perm hperm hFnodup
  have hsorted : (mergeEvents ex E).Sorted Event.tle :=
    List.sorted_insertionSort Event.tle (E.foldl mergeStep ex)
  have hfix : ∀ e ∈ E, mergeStep (mergeEvents ex E) e = mergeEvents ex E := by
    intro e he
    obtain ⟨q, hq⟩ := Option.isSome_iff_exists.mp (hfin e he)
    obtain ⟨R, p, hR, hRft, hle⟩ := foldl_mergeStep_lookup E ex e he q hq
    exact mergeStep_fix hq (lookupLast_of_perm hperm hFnodup hR) hRft hle
  show sortEventsByT (E.foldl mergeStep (mergeEvents ex E)) = mergeEvents ex E
  rw [foldl_mergeStep_fixpoint E (mergeEvents ex E) hfix]
  exact hsorted.insertionSort_eq

theorem buildGo_ft_isSome (T : Thresholds) :
    ∀ (ms : List Int) (pts : List Sample), ∀ e ∈ buildGo T ms pts, e.ft.isSome := by
  intro ms
  induction ms with
  | nil => intro pts e he; simp [buildGo] at he
  | cons c0 ms ih =>
    intro pts e he
    rw [buildGo] at he
    set pts1 := pts.dropWhile (fun p => decide (p.t < c0 - w2))
    by_cases hw : (scanGo c0 pts1 false none).1 = true
    · rw [if_pos hw] at he
      cases hbest : (scanGo c0 pts1 false none).2 with
      | none => rw [hbest] at he; exact ih pts1 e he
      | some best =>
        rw [hbest] at he
        rcases List.mem_cons.mp he with rfl | htail
        · rfl
        · exact ih pts1 e htail
    · rw [if_neg hw] at he
      exact ih pts1 e he

theorem buildCrest_ft_isSome (series : List Sample) (predictedHighs : List Int)
    (T : Thresholds) :
    ∀ e ∈ buildCrestAnchoredHighEvents series predictedHighs T, e.ft.isSome := by
  intro e he
  rw [buildCrestAnchoredHighEvents] at he
  by_cases hs : series.isEmpty
  · rw [if_pos hs] at he; exact absurd he (List.not_mem_nil e)
  · rw [if_neg hs] at he
    by_cases hm : predictedHighs.isEmpty
    · rw [if_pos hm] at he; exact absurd he (List.not_mem_nil e)
    · rw [if_neg hm] at he
      exact buildGo_ft_isSome T predictedHighs (sortSamplesByT series) e he

theorem mergeEvents_keysNodup (ex E : List Event) (h : keysNodup ex) :
    keysNodup (mergeEvents ex E) :=
  keysNodup_of_perm (List.perm_insertionSort Event.tle (E.foldl mergeStep ex)).symm
    (foldl_mergeStep_keysNodup E ex h)

theorem applyMethodReset_method (c : Cache) : (applyMethodReset c).method = METHOD := by
  by_cases h : c.method = METHOD
  · simp [applyMethodReset, h]
  · simp [applyMethodReset, h]

theorem applyMethodReset_thresholds (c : Cache) :
    (applyMethodReset c).thresholds = c.thresholds := by
  by_cases h : c.method = METHOD
  · simp [applyMethodReset, h]
  · simp [applyMethodReset, h]

theorem applyMethodReset_keysNodup (c : Cache) (h : keysNodup c.events) :
    keysNodup (applyMethodReset c).events := by
  by_cases hm : c.method = METHOD
  · simpa [applyMethodReset, hm] using h
  · simp [applyMethodReset, hm, keysNodup]

theorem applyMethodReset_of_method {c : Cache} (h : c.method = METHOD) :
    applyMethodReset c = c := by
  simp [applyMethodReset, h]

theorem windowOf_isSome_congr (c c' : Cache) (m : Mode)
    (h : (windowOf c m).isSome) : (windowOf c' m).isSome := by
  cases m with
  | incremental nowMs => simp [windowOf]
  | backfillYear y =>
    by_cases hy : y < 1900 ∨ y > 3000
    · rw [windowOf, if_pos hy] at h; exact absurd h (by simp)
    · rw [windowOf, if_neg hy]; rfl
  | backfillRange y1 y2 =>
    by_cases hy : min y1 y2 < 1900 ∨ max y1 y2 > 3000
    · rw [windowOf, if_pos hy] at h; exact absurd h (by simp)
    · rw [windowOf, if_neg hy]; rfl

/-- Running `main` a second time on the same fetched inputs reproduces the
same persisted cache. -/
theorem runMain_idem (c0 c1 : Cache) (m : Mode) (series : List Sample)
    (predictedHighs : List Int) (hc : keysNodup c0.events)
    (hrun : runMain c0 m series predictedHighs = some c1) :
    runMain c1 m series predictedHighs = some c1 := by
  rw [runMain] at hrun
  cases hT : c0.thresholds with
  | none => rw [hT] at hrun; exact absurd hrun (by simp)
  | some T =>
    rw [hT] at hrun
    simp only at hrun
    cases hw : windowOf (applyMethodReset c0) m with
    | none => rw [hw] at hrun; exact absurd hrun (by simp)
    | some win =>
      rw [hw] at hrun
      simp only at hrun
      by_cases hs : series.isEmpty
      · rw [if_pos hs] at hrun; exact absurd hrun (by simp)
      · rw [if_neg hs] at hrun
        by_cases hp : predictedHighs.isEmpty
        · rw [if_pos hp] at hrun; exact absurd hrun (by simp)
        · rw [if_neg hp] at hrun
          have hne : series ≠ [] := fun hnil => hs (by rw [hnil]; rfl)
          cases hlast : series.getLast? with
          | none =>
            exact absurd (List.getLast?_isSome.mpr hne) (by rw [hlast]; simp)
          | some p =>
            rw [hlast] at hrun
            have hc1 : c1 = { applyMethodReset c0 with
                events := mergeEvents (applyMethodReset c0).events
                  (buildCrestAnchoredHighEvents series predictedHighs T)
                lastProcessedMs := some p.t } := (Option.some_injective _ hrun).symm
            have hc1m : c1.method = METHOD := by
              rw [hc1]; exact applyMethodReset_method c0
            have hc1T : c1.thresholds = some T := by
              rw [hc1]
              show (applyMethodReset c0).thresholds = some T
              rw [applyMethodReset_thresholds, hT]
            have hreset : applyMethodReset c1 = c1 := applyMethodReset_of_method hc1m
            have hwin1 : (windowOf c1 m).isSome :=
              windowOf_isSome_congr (applyMethodReset c0) c1 m (by rw [hw]; rfl)
            obtain ⟨win1, hwin1eq⟩ := Option.isSome_iff_exists.mp hwin1
            have hidem : mergeEvents c1.events
                (buildCrestAnchoredHighEvents series predictedHighs T) = c1.events := by
              rw [hc1]
              show mergeEvents (mergeEvents (applyMethodReset c0).events
                (buildCrestAnchoredHighEvents series predictedHighs T))
                (buildCrestAnchoredHighEvents series predictedHighs T)
                = mergeEvents (applyMethodReset c0).events
                  (buildCrestAnchoredHighEvents series predictedHighs T)
              exact mergeEvents_idem _ _ (applyMethodReset_keysNodup c0 hc)
                (buildCrest_ft_isSome series predictedHighs T)
            have hlp : c1.lastProcessedMs = some p.t := by rw [hc1]
            rw [runMain, hc1T]
            simp only
            rw [hreset, hwin1eq]
            simp only
            rw [if_neg hs, if_neg hp, hlast]
            simp only
            rw [hidem, ← hlp]

/-- C1: (a) the merge engine is idempotent on any key-unique cache and any
batch of (finite-valued) events, `merge(merge(cache, E), E) = merge(cache, E)`;
and (b) re-running `main` with the same fetched observation series and
crest marks reproduces the already-persisted cache byte for byte — no event
added, updated or reordered and `lastProcessedISO` unchanged. -/
theorem merge_idempotent (ex E : List Event) (hex : keysNodup ex)
    (hfin : ∀ e ∈ E, e.ft.isSome)
    (c0 c1 : Cache) (m : Mode) (series : List Sample) (predictedHighs : List Int)
    (hc : keysNodup c0.events)
    (hrun : runMain c0 m series predictedHighs = some c1) :
    mergeEvents (mergeEvents ex E) E = mergeEvents ex E ∧
    runMain c1 m series predictedHighs = some c1 :=
  ⟨mergeEvents_idem ex E hex hfin,
   runMain_idem c0 c1 m series predictedHighs hc hrun⟩

theorem merge_idempotent_witness :
    mergeEvents (mergeEvents [] [evA]) [evA] = mergeEvents [] [evA] ∧
    runMain resultC5 (Mode.backfillYear 2000) [{ t := 946684800000, ft := 1 }] [0]
      = some resultC5 :=
  merge_idempotent [] [evA] (by decide) (by decide) cacheC5 resultC5
    (Mode.backfillYear 2000) [{ t := 946684800000, ft := 1 }] [0]
    (by decide) (by decide)

/-! ### C4: keep-best, amended part -/

theorem lookupLast_unique_at {l : List Event} {k : Int} {w : Event}
    (hw : w ∈ l) (hc : w.crest = k)
    (huniq : ∀ u ∈ l, u.crest = k → u = w) :
    lookupLast l k = some w := by
  cases h : lookupLast l k with
  | none => exact absurd hc ((lookupLast_eq_none_iff l k).mp h w hw)
  | some u =>
    obtain ⟨hu, huc⟩ := lookupLast_mem h
    rw [huniq u hu huc]

theorem replaceLast_append_single {ex : List Event} {k : Int} {e1 v : Event}
    (h1 : e1.crest = k) : replaceLastByCrest (ex ++ [e1]) k v = ex ++ [v] := by
  rw [replaceLastByCrest, List.reverse_append]
  simp only [List.reverse_cons, List.reverse_nil, List.nil_append, List.singleton_append]
  rw [replaceFirstByCrest, if_pos h1, List.reverse_cons, List.reverse_reverse]

theorem replaceFirst_unique_k {k : Int} {v : Event} :
    ∀ (m : List Event), m.countP (fun e => e.crest == k) ≤ 1 →
      ∀ u ∈ replaceFirstByCrest m k v, u.crest = k → u = v := by
  intro m
  induction m with
  | nil => intro _ u hu; exact absurd hu (List.not_mem_nil u)
  | cons e es ih =>
    intro hcount u hu huc
    rw [replaceFirstByCrest] at hu
    by_cases hc : e.crest = k
    · rw [if_pos hc] at hu
      rcases List.mem_cons.mp hu with rfl | hes
      · rfl
      · exfalso
        have hcons : List.countP (fun e => e.crest == k) (e :: es)
            = List.countP (fun e => e.crest == k) es + 1 := by
          rw [List.countP_cons]
          simp [hc]
        have hcz : es.countP (fun e => e.crest == k) = 0 := by omega
        exact (List.countP_eq_zero.mp hcz u hes) (by simpa using huc)
    · rw [if_neg hc] at hu
      rcases List.mem_cons.mp hu with rfl | hes
      · exact absurd huc hc
      · refine ih ?_ u hes huc
        have hcons := List.countP_cons (p := fun e => e.crest == k) e es
        omega

theorem replaceLast_unique_k {l : List Event} {k : Int} {v : Event}
    (hcount : l.countP (fun e => e.crest == k) ≤ 1) :
    ∀ u ∈ replaceLastByCrest l k v, u.crest = k → u = v := by
  intro u hu huc
  rw [replaceLastByCrest] at hu
  have hu' : u ∈ replaceFirstByCrest l.reverse k v := List.mem_reverse.mp hu
  refine replaceFirst_unique_k l.reverse ?_ u hu' huc
  rw [List.countP_reverse]
  exact hcount

theorem storedFtAt_sort {l : List Event} {k : Int} {w : Event}
    (hw : w ∈ l) (hc : w.crest = k)
    (huniq : ∀ u ∈ l, u.crest = k → u = w) :
    storedFtAt (sortEventsByT l) k = some w.ft := by
  have hperm : (sortEventsByT l).Perm l := List.perm_insertionSort Event.tle l
  have hw' : w ∈ sortEventsByT l := hperm.mem_iff.mpr hw
  have huniq' : ∀ u ∈ sortEventsByT l, u.crest = k → u = w :=
    fun u hu huc => huniq u (hperm.subset hu) huc
  rw [storedFtAt, lookupLast_unique_at hw' hc huniq']
  rfl

/-- C4 amended: the keep-best rule is order-independent for the 3.0/3.4
pair, and stores 3.4 — provided the shared key is not already present in
the cache (a key already stored with a higher finite value keeps its
value, identically for both orders, as the counterexample shows). -/
theorem keep_best_amended (ex : List Event) (k : Int) (e1 e2 : Event)
    (hk : ∀ ev ∈ ex, ev.crest ≠ k)
    (h1 : e1.crest = k) (h2 : e2.crest = k)
    (hf1 : e1.ft = some 3) (hf2 : e2.ft = some (17/5)) :
    storedFtAt (mergeEvents ex [e1, e2]) k = some (some (17/5)) ∧
    storedFtAt (mergeEvents ex [e2, e1]) k = some (some (17/5)) ∧
    storedFtAt (mergeEvents (mergeEvents ex [e1]) [e2]) k = some (some (17/5)) ∧
    storedFtAt (mergeEvents (mergeEvents ex [e2]) [e1]) k = some (some (17/5)) := by
  have hnone1 : lookupLast ex e1.crest = none := by
    rw [h1]; exact (lookupLast_eq_none_iff ex k).mpr hk
  have hnone2 : lookupLast ex e2.crest = none := by
    rw [h2]; exact (lookupLast_eq_none_iff ex k).mpr hk
  have h12 : e1.crest = e2.crest := by rw [h1, h2]
  have hsu12 : shouldUpdate e1.ft e2.ft = true := by
    rw [hf1, hf2, shouldUpdate]
    simp only [decide_eq_true_eq]
    norm_num
  have hsu21 : shouldUpdate e2.ft e1.ft = false := by
    rw [hf1, hf2, shouldUpdate]
    simp only [decide_eq_false_iff_not]
    norm_num
  have huniq2 : ∀ u ∈ ex ++ [e2], u.crest = k → u = e2 := by
    intro u hu huc
    rcases List.mem_append.mp hu with hex | hsing
    · exact absurd huc (hk u hex)
    · exact List.mem_singleton.mp hsing
  have hmem2 : e2 ∈ ex ++ [e2] := List.mem_append.mpr (Or.inr (List.mem_singleton.mpr rfl))
  refine ⟨?_, ?_, ?_, ?_⟩
  · -- one batch, e1 then e2
    show storedFtAt (sortEventsByT (mergeStep (mergeStep ex e1) e2)) k = some (some (17/5))
    rw [mergeStep_of_absent hnone1]
    have hlk : lookupLast (ex ++ [e1]) e2.crest = some e1 := by
      rw [lookupLast_append_single, if_pos h12]
    rw [mergeStep_of_present hlk, if_pos hsu12, replaceLast_append_single h12,
      storedFtAt_sort hmem2 h2 huniq2, hf2]
  · -- one batch, e2 then e1
    show storedFtAt (sortEventsByT (mergeStep (mergeStep ex e2) e1)) k = some (some (17/5))
    rw [mergeStep_of_absent hnone2]
    have hlk : lookupLast (ex ++ [e2]) e1.crest = some e2 := by
      rw [lookupLast_append_single, if_pos h12.symm]
    rw [mergeStep_of_present hlk, if_neg (by rw [hsu21]; exact Bool.false_ne_true),
      storedFtAt_sort hmem2 h2 huniq2, hf2]
  · -- two merges, e1 then e2
    show storedFtAt (sortEventsByT (mergeStep (sortEventsByT (mergeStep ex e1)) e2)) k
      = some (some (17/5))
    rw [mergeStep_of_absent hnone1]
    have hperm1 : (sortEventsByT (ex ++ [e1])).Perm (ex ++ [e1]) :=
      List.perm_insertionSort Event.tle (ex ++ [e1])
    have hmem1 : e1 ∈ sortEventsByT (ex ++ [e1]) :=
      hperm1.mem_iff.mpr (List.mem_append.mpr (Or.inr (List.mem_singleton.mpr rfl)))
    have huniq1 : ∀ u ∈ sortEventsByT (ex ++ [e1]), u.crest = e2.crest → u = e1 := by
      intro u hu huc
      rcases List.mem_append.mp (hperm1.subset hu) with hex | hsing
      · exact absurd (h2 ▸ huc) (hk u hex)
      · exact List.mem_singleton.mp hsing
    have hlk : lookupLast (sortEventsByT (ex ++ [e1])) e2.crest = some e1 :=
      lookupLast_unique_at hmem1 h12 huniq1
    rw [mergeStep_of_present hlk, if_pos hsu12]
    have hcount : (sortEventsByT (ex ++ [e1])).countP (fun e => e.crest == e2.crest) ≤ 1 := by
      rw [hperm1.countP_eq, List.countP_append]
      have hz : ex.countP (fun e => e.crest == e2.crest) = 0 :=
        List.countP_eq_zero.mpr (fun u hu => by
          simp only [beq_iff_eq]
          exact fun hc => hk u hu (h2 ▸ hc))
      have hone : ([e1] : List Event).countP (fun e => e.crest == e2.crest) = 1 := by
        simp [List.countP_cons, h12]
      omega
    have hmemr : e2 ∈ replaceLastByCrest (sortEventsByT (ex ++ [e1])) e2.crest e2 :=
      (lookupLast_mem (lookupLast_replaceLast_same rfl ⟨e1, hmem1, h12⟩)).1
    have huniqr : ∀ u ∈ replaceLastByCrest (sortEventsByT (ex ++ [e1])) e2.crest e2,
        u.crest = k → u = e2 := by
      intro u hu huc
      exact replaceLast_unique_k hcount u hu (h2 ▸ huc)
    rw [storedFtAt_sort hmemr h2 huniqr, hf2]
  · -- two merges, e2 then e1
    show storedFtAt (sortEventsByT (mergeStep (sortEventsByT (mergeStep ex e2)) e1)) k
      = some (some (17/5))
    rw [mergeStep_of_absent hnone2]
    have hperm2 : (sortEventsByT (ex ++ [e2])).Perm (ex ++ [e2]) :=
      List.perm_insertionSort Event.tle (ex ++ [e2])
    have hmem2' : e2 ∈ sortEventsByT (ex ++ [e2]) := hperm2.mem_iff.mpr hmem2
    have huniq2' : ∀ u ∈ sortEventsByT (ex ++ [e2]), u.crest = e1.crest → u = e2 := by
      intro u hu huc
      exact huniq2 u (hperm2.subset hu) (h1 ▸ huc)
    have hlk : lookupLast (sortEventsByT (ex ++ [e2])) e1.crest = some e2 :=
      lookupLast_unique_at hmem2' h12.symm huniq2'
    rw [mergeStep_of_present hlk, if_neg (by rw [hsu21]; exact Bool.false_ne_true)]
    have hsorted : (sortEventsByT (ex ++ [e2])).Sorted Event.tle :=
      List.sorted_insertionSort Event.tle (ex ++ [e2])
    show storedFtAt (sortEventsByT (sortEventsByT (ex ++ [e2]))) k = some (some (17/5))
    rw [show sortEventsByT (sortEventsByT (ex ++ [e2])) = sortEventsByT (ex ++ [e2]) from
      hsorted.insertionSort_eq]
    have huniq2k : ∀ u ∈ sortEventsByT (ex ++ [e2]), u.crest = k → u = e2 :=
      fun u hu huc => huniq2 u (hperm2.subset hu) huc
    rw [storedFtAt, lookupLast_unique_at hmem2' h2 huniq2k, Option.map_some', hf2]

theorem keep_best_amended_witness :
    storedFtAt (mergeEvents [Event.mk 0 (some 1) .below 99 "CrestHigh"] [evA, evB]) 555
      = some (some (17/5)) ∧
    storedFtAt (mergeEvents [Event.mk 0 (some 1) .below 99 "CrestHigh"] [evB, evA]) 555
      = some (some (17/5)) ∧
    storedFtAt (mergeEvents
      (mergeEvents [Event.mk 0 (some 1) .below 99 "CrestHigh"] [evA]) [evB]) 555
      = some (some (17/5)) ∧
    storedFtAt (mergeEvents
      (mergeEvents [Event.mk 0 (some 1) .below 99 "CrestHigh"] [evB]) [evA]) 555
      = some (some (17/5)) :=
  keep_best_amended [Event.mk 0 (some 1) .below 99 "CrestHigh"] 555 evA evB
    (by decide) (by decide) (by decide) (by decide)
    (by show some (Rat.mk' 17 5) = some (17/5)
        rw [Rat.mk'_eq_divInt, Rat.divInt_eq_div]
        norm_num)

/-! ### Characterization of the crest-anchored builder (C9, C6)

The two-pointer sweep of `buildCrestAnchoredHighEvents` is characterized,
for a sorted sample list and sorted crest marks, as a `filterMap` of a
declarative per-crest emitter over the full sample list. -/

/-- A generic specification of the strict-improvement maximum fold
`for p of l: if (val mx < val p) mx = p`: the result is the first
element attaining the maximum (or the seed when nothing beats it). -/
theorem foldl_pickMax_spec {α : Type} (val : α → ℚ) :
    ∀ (l : List α) (b : α),
      ∃ m, l.foldl (fun mx p => if val mx < val p then p else mx) b = m ∧
        (∀ q ∈ l, val q ≤ val m) ∧ val b ≤ val m ∧
        (m = b ∨ ∃ l1 l2, l = l1 ++ m :: l2 ∧ val b < val m ∧ ∀ q ∈ l1, val q < val m) := by
  intro l
  induction l with
  | nil => intro b; exact ⟨b, rfl, by simp, le_refl _, Or.inl rfl⟩
  | cons x xs ih =>
    intro b
    by_cases hx : val b < val x
    · obtain ⟨m, hm, hall, hble, hdec⟩ := ih x
      refine ⟨m, ?_, ?_, le_of_lt (lt_of_lt_of_le hx hble), Or.inr ?_⟩
      · rw [List.foldl_cons, if_pos hx]; exact hm
      · intro q hq
        rcases List.mem_cons.mp hq with rfl | hqs
        · exact hble
        · exact hall q hqs
      · rcases hdec with rfl | ⟨l1, l2, hsplit, hlt, hl1⟩
        · exact ⟨[], xs, rfl, hx, by simp⟩
        · exact ⟨x :: l1, l2, by rw [hsplit]; rfl, lt_of_lt_of_le hx hble,
            fun q hq => by
              rcases List.mem_cons.mp hq with rfl | hq1
              · exact lt_of_lt_of_le hlt (le_refl _)
              · exact hl1 q hq1⟩
    · obtain ⟨m, hm, hall, hble, hdec⟩ := ih b
      refine ⟨m, ?_, ?_, hble, ?_⟩
      · rw [List.foldl_cons, if_neg hx]; exact hm
      · intro q hq
        rcases List.mem_cons.mp hq with rfl | hqs
        · exact le_trans (not_lt.mp hx) hble
        · exact hall q hqs
      · rcases hdec with rfl | ⟨l1, l2, hsplit, hlt, hl1⟩
        · exact Or.inl rfl
        · exact Or.inr ⟨x :: l1, l2, by rw [hsplit]; rfl, hlt,
            fun q hq => by
              rcases List.mem_cons.mp hq with rfl | hq1
              · exact lt_of_le_of_lt (not_lt.mp hx) hlt
              · exact hl1 q hq1⟩

/-- The running maximum of the builder, seeded through `Option`. -/
def firstMax (l : List Sample) : Option Sample := l.foldl bestOf none

theorem bestOf_some (b p : Sample) :
    bestOf (some b) p = some (if b.ft < p.ft then p else b) := by
  rw [bestOf]
  by_cases h : b.ft < p.ft
  · rw [if_pos h, if_pos h]
  · rw [if_neg h, if_neg h]

theorem foldl_bestOf_some (l : List Sample) :
    ∀ b : Sample, l.foldl bestOf (some b)
      = some (l.foldl (fun mx p => if mx.ft < p.ft then p else mx) b) := by
  induction l with
  | nil => intro b; rfl
  | cons x xs ih =>
    intro b
    rw [List.foldl_cons, List.foldl_cons, bestOf_some]
    exact ih _

theorem firstMax_spec {l : List Sample} {m : Sample} (h : firstMax l = some m) :
    (∀ q ∈ l, q.ft ≤ m.ft) ∧
    ∃ l1 l2, l = l1 ++ m :: l2 ∧ ∀ q ∈ l1, q.ft < m.ft := by
  cases l with
  | nil => exact absurd h (by rw [firstMax]; simp)
  | cons x xs =>
    rw [firstMax, List.foldl_cons] at h
    rw [show bestOf none x = some x from rfl, foldl_bestOf_some] at h
    obtain ⟨m', hm', hall, hxle, hdec⟩ := foldl_pickMax_spec Sample.ft xs x
    rw [hm'] at h
    have hmm : m' = m := Option.some_injective _ h
    subst hmm
    constructor
    · intro q hq
      rcases List.mem_cons.mp hq with rfl | hqs
      · exact hxle
      · exact hall q hqs
    · rcases hdec with rfl | ⟨l1, l2, hsplit, hlt, hl1⟩
      · exact ⟨[], xs, rfl, by simp⟩
      · exact ⟨x :: l1, l2, by rw [hsplit]; rfl, fun q hq => by
          rcases List.mem_cons.mp hq with rfl | hq1
          · exact hlt
          · exact hl1 q hq1⟩

theorem firstMax_isSome {l : List Sample} (h : l ≠ []) : ∃ m, firstMax l = some m := by
  cases l with
  | nil => exact absurd rfl h
  | cons x xs =>
    rw [firstMax, List.foldl_cons, show bestOf none x = some x from rfl,
      foldl_bestOf_some]
    exact ⟨_, rfl⟩

theorem firstMax_mem {l : List Sample} {m : Sample} (h : firstMax l = some m) : m ∈ l := by
  obtain ⟨-, l1, l2, hsplit, -⟩ := firstMax_spec h
  rw [hsplit]
  exact List.mem_append.mpr (Or.inr (List.mem_cons_self m l2))

/-- The scan of a crest stops at the first sample past `c + w2`:
its flag component. -/
theorem scanGo_fst_eq (c : Int) :
    ∀ (ps : List Sample) (h : Bool) (b : Option Sample),
      (scanGo c ps h b).1
        = (h || (ps.takeWhile (fun p => decide (p.t ≤ c + w2))).any
            (fun p => decide (|p.t - c| ≤ w1))) := by
  intro ps
  induction ps with
  | nil => intro h b; simp [scanGo]
  | cons p rest ih =>
    intro h b
    rw [scanGo, List.takeWhile_cons]
    by_cases hgt : p.t > c + w2
    · rw [if_pos hgt]
      have : (decide (p.t ≤ c + w2)) = false := by simpa using hgt
      rw [this]
      simp
    · rw [if_neg hgt]
      have : (decide (p.t ≤ c + w2)) = true := by simpa using not_lt.mp hgt
      rw [this]
      rw [ih]
      simp [List.any_cons, Bool.or_assoc]

/-- The scan's running-max component. -/
theorem scanGo_snd_eq (c : Int) :
    ∀ (ps : List Sample) (h : Bool) (b : Option Sample),
      (scanGo c ps h b).2
        = (ps.takeWhile (fun p => decide (p.t ≤ c + w2))).foldl bestOf b := by
  intro ps
  induction ps with
  | nil => intro h b; simp [scanGo]
  | cons p rest ih =>
    intro h b
    rw [scanGo, List.takeWhile_cons]
    by_cases hgt : p.t > c + w2
    · rw [if_pos hgt]
      have : (decide (p.t ≤ c + w2)) = false := by simpa using hgt
      rw [this]
      rfl
    · rw [if_neg hgt]
      have : (decide (p.t ≤ c + w2)) = true := by simpa using not_lt.mp hgt
      rw [this, if_pos rfl, List.foldl_cons]
      exact ih _ _

/-- On a sorted list, dropping the prefix below `x` is filtering. -/
theorem dropWhile_lt_eq_filter (x : Int) :
    ∀ {pts : List Sample}, pts.Pairwise Sample.tle →
      pts.dropWhile (fun p => decide (p.t < x))
        = pts.filter (fun p => decide (x ≤ p.t)) := by
  intro pts
  induction pts with
  | nil => intro _; rfl
  | cons p rest ih =>
    intro hs
    obtain ⟨hall, hrest⟩ := List.pairwise_cons.mp hs
    rw [List.dropWhile_cons, List.filter_cons]
    by_cases hlt : p.t < x
    · have h1 : (decide (p.t < x)) = true := by simpa using hlt
      have h2 : (decide (x ≤ p.t)) = false := by simpa using hlt
      rw [h1, h2]
      simp only [ite_true, Bool.false_eq_true, ite_false]
      exact ih hrest
    · have h1 : (decide (p.t < x)) = false := by simpa using hlt
      have h2 : (decide (x ≤ p.t)) = true := by simpa using not_lt.mp hlt
      rw [h1, h2]
      simp only [Bool.false_eq_true, ite_false, ite_true]
      have : rest.filter (fun p => decide (x ≤ p.t)) = rest :=
        List.filter_eq_self.mpr (fun q hq => by
          simpa using le_trans (not_lt.mp hlt) (hall q hq))
      rw [this]

/-- On a sorted list, taking the prefix up to `x` is filtering. -/
theorem takeWhile_le_eq_filter (x : Int) :
    ∀ {pts : List Sample}, pts.Pairwise Sample.tle →
      pts.takeWhile (fun p => decide (p.t ≤ x))
        = pts.filter (fun p => decide (p.t ≤ x)) := by
  intro pts
  induction pts with
  | nil => intro _; rfl
  | cons p rest ih =>
    intro hs
    obtain ⟨hall, hrest⟩ := List.pairwise_cons.mp hs
    rw [List.takeWhile_cons, List.filter_cons]
    by_cases hle : p.t ≤ x
    · have h1 : (decide (p.t ≤ x)) = true := by simpa using hle
      rw [h1]
      simp only [ite_true]
      rw [ih hrest]
    · have h1 : (decide (p.t ≤ x)) = false := by simpa using hle
      rw [h1]
      simp only [Bool.false_eq_true, ite_false]
      have : rest.filter (fun p => decide (p.t ≤ x)) = [] :=
        List.filter_eq_nil_iff.mpr (fun q hq => by
          have := hall q hq
          simp only [decide_eq_true_eq]
          intro hqx
          exact hle (le_trans this hqx))
      rw [this]

/-- The outer-window samples of a crest, over a given sample list. -/
def outerSamples (pts : List Sample) (c : Int) : List Sample :=
  pts.filter (fun p => decide (c - w2 ≤ p.t) && decide (p.t ≤ c + w2))

/-- The declarative per-crest emitter: look at all samples within the
outer window, gate on inner-window coverage, and emit the event built
from the first maximum of the window. -/
def emitAt (T : Thresholds) (pts : List Sample) (c : Int) : Option Event :=
  if (outerSamples pts c).any (fun p => decide (|p.t - c| ≤ w1)) then
    match firstMax (outerSamples pts c) with
    | some best => some (mkCrestEvent c best T)
    | none => none
  else none

theorem outerSamples_filter_lower {pts : List Sample} {c b : Int} (hb : b ≤ c - w2) :
    outerSamples (pts.filter (fun p => decide (b ≤ p.t))) c = outerSamples pts c := by
  rw [outerSamples, List.filter_filter, outerSamples]
  refine List.filter_congr ?_
  intro p _
  by_cases h1 : c - w2 ≤ p.t
  · have hb' : (decide (b ≤ p.t)) = true := by
      simpa using le_trans hb h1
    rw [hb']
    simp
  · have h1' : (decide (c - w2 ≤ p.t)) = false := by simpa using h1
    rw [h1']
    simp

theorem sorted_filter {pts : List Sample} (hs : pts.Pairwise Sample.tle)
    (q : Sample → Bool) : (pts.filter q).Pairwise Sample.tle :=
  hs.sublist (List.filter_sublist pts)

/-- The scanned sample set of a crest, from a suffix that already dropped
everything below `c - w2`, equals the outer-window filter. -/
theorem scanned_eq_outer {pts : List Sample} (hs : pts.Pairwise Sample.tle) (c : Int) :
    ((pts.filter (fun p => decide (c - w2 ≤ p.t))).takeWhile
        (fun p => decide (p.t ≤ c + w2)))
      = outerSamples pts c := by
  rw [takeWhile_le_eq_filter (c + w2) (sorted_filter hs _), List.filter_filter]
  rw [outerSamples]
  refine List.filter_congr ?_
  intro p _
  exact Bool.and_comm _ _

/-- Characterization: on sorted samples and sorted crest marks, the
builder loop is `filterMap` of the declarative emitter. -/
theorem buildGo_eq_filterMap (T : Thresholds) :
    ∀ (ms : List Int) (pts : List Sample),
      pts.Pairwise Sample.tle → ms.Pairwise (· ≤ ·) →
      buildGo T ms pts = ms.filterMap (emitAt T pts) := by
  intro ms
  induction ms with
  | nil => intro pts _ _; rfl
  | cons c ms ih =>
    intro pts hpts hms
    obtain ⟨hall, hms'⟩ := List.pairwise_cons.mp hms
    rw [buildGo, List.filterMap_cons]
    have hdrop : pts.dropWhile (fun p => decide (p.t < c - w2))
        = pts.filter (fun p => decide (c - w2 ≤ p.t)) :=
      dropWhile_lt_eq_filter (c - w2) hpts
    have hpts1 : (pts.filter (fun p => decide (c - w2 ≤ p.t))).Pairwise Sample.tle :=
      sorted_filter hpts _
    have htail : buildGo T ms (pts.filter (fun p => decide (c - w2 ≤ p.t)))
        = ms.filterMap (emitAt T pts) := by
      rw [ih _ hpts1 hms']
      refine List.filterMap_congr ?_
      intro c' hc'
      rw [emitAt, emitAt, outerSamples_filter_lower
        (by have := hall c' hc'; omega : c - w2 ≤ c' - w2)]
    have hfst : (scanGo c (pts.filter (fun p => decide (c - w2 ≤ p.t))) false none).1
        = (outerSamples pts c).any (fun p => decide (|p.t - c| ≤ w1)) := by
      rw [scanGo_fst_eq, scanned_eq_outer hpts]
      simp
    have hsnd : (scanGo c (pts.filter (fun p => decide (c - w2 ≤ p.t))) false none).2
        = firstMax (outerSamples pts c) := by
      rw [scanGo_snd_eq, scanned_eq_outer hpts, firstMax]
    rw [hdrop, htail]
    rw [emitAt]
    by_cases hany : (outerSamples pts c).any (fun p => decide (|p.t - c| ≤ w1)) = true
    · rw [if_pos (by rw [hfst]; exact hany), if_pos hany]
      cases hbest : firstMax (outerSamples pts c) with
      | none => rw [hsnd, hbest]
      | some best => rw [hsnd, hbest]
    · rw [if_neg (by rw [hfst]; exact hany), if_neg hany]

/-! ### C9: observed time and key of an emitted event -/

theorem w1_le_w2 : w1 ≤ w2 := by decide

theorem mem_outerSamples {pts : List Sample} {c : Int} {p : Sample} :
    p ∈ outerSamples pts c ↔ p ∈ pts ∧ c - w2 ≤ p.t ∧ p.t ≤ c + w2 := by
  rw [outerSamples, List.mem_filter]
  constructor
  · rintro ⟨hp, hpred⟩
    rcases Bool.and_eq_true_iff.mp hpred with ⟨h1, h2⟩
    exact ⟨hp, of_decide_eq_true h1, of_decide_eq_true h2⟩
  · rintro ⟨hp, h1, h2⟩
    refine ⟨hp, ?_⟩
    rw [Bool.and_eq_true_iff]
    exact ⟨decide_eq_true h1, decide_eq_true h2⟩

theorem emitAt_eq_some {T : Thresholds} {pts : List Sample} {c : Int} {e : Event}
    (h : emitAt T pts c = some e) :
    ∃ m, firstMax (outerSamples pts c) = some m ∧ e = mkCrestEvent c m T := by
  rw [emitAt] at h
  by_cases hany : (outerSamples pts c).any (fun p => decide (|p.t - c| ≤ w1)) = true
  · rw [if_pos hany] at h
    cases hbest : firstMax (outerSamples pts c) with
    | none => rw [hbest] at h; exact absurd h (by simp)
    | some m =>
      rw [hbest] at h
      exact ⟨m, rfl, (Option.some_injective _ h).symm⟩
  · rw [if_neg hany] at h
    exact absurd h (by simp)

/-- C9: for a crest `c` that passes the inner-window coverage gate (with
the sorted crest clock the callers provide), the builder emits an event
whose key is the crest time `c` itself, and whose observed time, value and
category come from a maximum-valued sample of the outer window. -/
theorem crest_event_observed_max (T : Thresholds) (series : List Sample)
    (predictedHighs : List Int) (c : Int)
    (hsorted : predictedHighs.Pairwise (· ≤ ·))
    (hc : c ∈ predictedHighs)
    (hcov : ∃ p ∈ series, |p.t - c| ≤ w1) :
    ∃ e ∈ buildCrestAnchoredHighEvents series predictedHighs T,
      e.crest = c ∧
      ∃ p ∈ series, |p.t - c| ≤ w2 ∧ e = mkCrestEvent c p T ∧ e.t = p.t ∧
        ∀ q ∈ series, |q.t - c| ≤ w2 → q.ft ≤ p.ft := by
  obtain ⟨p0, hp0s, hp0w⟩ := hcov
  have hsne : series.isEmpty = false := by
    cases series
    · exact absurd hp0s (List.not_mem_nil p0)
    · rfl
  have hmne : predictedHighs.isEmpty = false := by
    cases predictedHighs
    · exact absurd hc (List.not_mem_nil c)
    · rfl
  rw [buildCrestAnchoredHighEvents, hsne, if_neg (by simp), hmne, if_neg (by simp)]
  have hpts : (sortSamplesByT series).Pairwise Sample.tle :=
    List.sorted_insertionSort Sample.tle series
  have hperm : (sortSamplesByT series).Perm series := List.perm_insertionSort _ series
  rw [buildGo_eq_filterMap T predictedHighs (sortSamplesByT series) hpts hsorted]
  have hp0pts : p0 ∈ sortSamplesByT series := hperm.mem_iff.mpr hp0s
  have hp0abs := abs_le.mp hp0w
  have hp0W : p0 ∈ outerSamples (sortSamplesByT series) c := by
    rw [mem_outerSamples]
    have h12 := w1_le_w2
    exact ⟨hp0pts, by omega, by omega⟩
  have hany : (outerSamples (sortSamplesByT series) c).any
      (fun p => decide (|p.t - c| ≤ w1)) = true := by
    rw [List.any_eq_true]
    exact ⟨p0, hp0W, decide_eq_true hp0w⟩
  have hWne : outerSamples (sortSamplesByT series) c ≠ [] := by
    intro hnil
    rw [hnil] at hp0W
    exact List.not_mem_nil p0 hp0W
  obtain ⟨m, hm⟩ := firstMax_isSome hWne
  have hemit : emitAt T (sortSamplesByT series) c = some (mkCrestEvent c m T) := by
    rw [emitAt, if_pos hany, hm]
  refine ⟨mkCrestEvent c m T, List.mem_filterMap.mpr ⟨c, hc, hemit⟩, rfl, m, ?_, ?_, rfl, rfl, ?_⟩
  · exact hperm.subset ((mem_outerSamples.mp (firstMax_mem hm)).1)
  · obtain ⟨-, hb1, hb2⟩ := mem_outerSamples.mp (firstMax_mem hm)
    exact abs_le.mpr ⟨by omega, by omega⟩
  · intro q hqs hqw
    obtain ⟨hmax, -⟩ := firstMax_spec hm
    have hqabs := abs_le.mp hqw
    refine hmax q ?_
    rw [mem_outerSamples]
    exact ⟨hperm.mem_iff.mpr hqs, by omega, by omega⟩

/-- Thresholds used in concrete instances. -/
def thresholdsW : Thresholds := { minorLow := 3, moderateLow := 4, majorLow := 5 }

theorem crest_event_observed_max_witness :
    ∃ e ∈ buildCrestAnchoredHighEvents [Sample.mk 0 2] [0] thresholdsW,
      e.crest = 0 ∧
      ∃ p ∈ [Sample.mk 0 2], |p.t - 0| ≤ w2 ∧ e = mkCrestEvent 0 p thresholdsW ∧
        e.t = p.t ∧ ∀ q ∈ [Sample.mk 0 2], |q.t - 0| ≤ w2 → q.ft ≤ p.ft :=
  crest_event_observed_max thresholdsW [Sample.mk 0 2] [0] 0
    (by decide) (by decide) ⟨Sample.mk 0 2, by decide, by decide⟩

/-! ### C6: ordering of builder output and post-merge events -/

/-- The first-maximum argument: for sorted samples and two crests
`c ≤ c'`, the observed times of their emitted events are ordered.  If the
later crest's maximum were strictly earlier, both maxima would lie in both
windows, forcing equal values — but then the earlier of the two would have
been picked first by both scans. -/
theorem emitAt_time_mono (T : Thresholds) {pts : List Sample}
    (hs : pts.Pairwise Sample.tle) {c c' : Int} (hcc : c ≤ c') {e e' : Event}
    (he : emitAt T pts c = some e) (he' : emitAt T pts c' = some e') :
    e.t ≤ e'.t := by
  obtain ⟨m, hm, rfl⟩ := emitAt_eq_some he
  obtain ⟨m', hm', rfl⟩ := emitAt_eq_some he'
  show m.t ≤ m'.t
  by_contra hlt
  have hlt' : m'.t < m.t := lt_of_not_le hlt
  obtain ⟨hmW, hmlo, hmhi⟩ := mem_outerSamples.mp (firstMax_mem hm)
  obtain ⟨hm'W, hm'lo, hm'hi⟩ := mem_outerSamples.mp (firstMax_mem hm')
  obtain ⟨hmaxC, l1, l2, hsplitC, hl1C⟩ := firstMax_spec hm
  obtain ⟨hmaxC', -⟩ := firstMax_spec hm'
  have hm'inWc : m' ∈ outerSamples pts c := by
    rw [mem_outerSamples]
    exact ⟨hm'W, by omega, by omega⟩
  have hminWc' : m ∈ outerSamples pts c' := by
    rw [mem_outerSamples]
    exact ⟨hmW, by omega, by omega⟩
  have hle1 : m'.ft ≤ m.ft := hmaxC m' hm'inWc
  have hle2 : m.ft ≤ m'.ft := hmaxC' m hminWc'
  have hfteq : m'.ft = m.ft := le_antisymm hle1 hle2
  have hWsorted : (outerSamples pts c).Pairwise Sample.tle := sorted_filter hs _
  rw [hsplitC] at hm'inWc hWsorted
  rcases List.mem_append.mp hm'inWc with h1 | h2
  · exact absurd hfteq (ne_of_lt (hl1C m' h1))
  · rcases List.mem_cons.mp h2 with rfl | h2'
    · exact hlt (le_refl _)
    · have := ((List.pairwise_append.mp hWsorted).2.1)
      have htle : Sample.tle m m' := (List.pairwise_cons.mp this).1 m' h2'
      exact absurd htle (not_le.mpr hlt')

/-- C6 counterexample, two parts.  First: with sorted crest marks 0 ms and
1000 ms and a single sample at 0 ms, both crests pass the gate on the same
sample, so two events share observedTime 0 — the output is not strictly
increasing.  Second: with unsorted crest marks (3h, then 0) and samples at
1h and 2.9h, the builder emits observed times 2.9h then 1h — out of order —
so the claim fails for unordered inputs even without ties. -/
theorem sort_invariant_counterexample :
    (buildCrestAnchoredHighEvents [Sample.mk 0 5] [0, 1000] thresholdsW).map Event.t
      = [0, 0] ∧
    ¬ (buildCrestAnchoredHighEvents [Sample.mk 0 5] [0, 1000] thresholdsW).Pairwise
        (fun a b => a.t < b.t) ∧
    (buildCrestAnchoredHighEvents [Sample.mk 3600000 1, Sample.mk 10440000 10]
        [10800000, 0] thresholdsW).map Event.t = [10440000, 3600000] ∧
    ¬ (buildCrestAnchoredHighEvents [Sample.mk 3600000 1, Sample.mk 10440000 10]
        [10800000, 0] thresholdsW).Pairwise Event.tle := by
  refine ⟨?_, ?_, ?_, ?_⟩
  · decide
  · decide
  · decide
  · decide

/-- C6 amended: the builder's output (for the sorted crest clock the
callers provide) and the post-merge `cache.events` are sorted by
`observedTime` non-decreasingly; the order need not be strict, since two
nearby crests can resolve to the same observed maximum sample. -/
theorem sort_invariant_amended (T : Thresholds) (series : List Sample)
    (predictedHighs : List Int) (hsorted : predictedHighs.Pairwise (· ≤ ·))
    (ex batch : List Event) :
    (buildCrestAnchoredHighEvents series predictedHighs T).Pairwise Event.tle ∧
    (mergeEvents ex batch).Pairwise Event.tle := by
  constructor
  · rw [buildCrestAnchoredHighEvents]
    by_cases hs : series.isEmpty
    · rw [if_pos hs]; exact List.Pairwise.nil
    · rw [if_neg hs]
      by_cases hm : predictedHighs.isEmpty
      · rw [if_pos hm]; exact List.Pairwise.nil
      · rw [if_neg hm]
        have hpts : (sortSamplesByT series).Pairwise Sample.tle :=
          List.sorted_insertionSort Sample.tle series
        rw [buildGo_eq_filterMap T predictedHighs (sortSamplesByT series) hpts hsorted]
        refine hsorted.filterMap (emitAt T (sortSamplesByT series)) ?_
        intro c c' hcc e he e' he'
        exact emitAt_time_mono T hpts hcc he he'
  · exact List.sorted_insertionSort Event.tle _

theorem sort_invariant_amended_witness :
    (buildCrestAnchoredHighEvents [Sample.mk 0 2] [0, 7200000] thresholdsW).Pairwise
      Event.tle ∧
    (mergeEvents [evA] [evB]).Pairwise Event.tle :=
  sort_invariant_amended thresholdsW [Sample.mk 0 2] [0, 7200000] (by decide) [evA] [evB]

/-! ### The local-maxima detector
(`src/tools /update_seabright_peaks_navd88.js`) and the declustering
detector (first half of `src/tools/update_peaks_navd88.js`) -/

/-- A normalized NWPS stage point `{t, mllw, navd88}` (`extractPoints`). -/
structure NwpsPoint where
  t : Int
  mllw : ℚ
  navd88 : ℚ
deriving DecidableEq, Repr

/-- The datum conversion `toNavd88(mllwFt) = mllwFt - SITE.mllwToNavd88OffsetFt`, offset 2.10 ft. -/
def toNavd88 (mllwFt : ℚ) : ℚ := mllwFt - 21/10

/-- Time order on NWPS points, for the `points.sort((a, b) => a.t - b.t)`
of `extractPoints`. -/
def NwpsPoint.tle (a b : NwpsPoint) : Prop := a.t ≤ b.t

instance : DecidableRel NwpsPoint.tle := fun a b => Int.decLe a.t b.t

instance : IsTotal NwpsPoint NwpsPoint.tle := ⟨fun a b => Int.le_total a.t b.t⟩

instance : IsTrans NwpsPoint NwpsPoint.tle := ⟨fun _ _ _ h1 h2 => le_trans h1 h2⟩

/-- The sort step of `extractPoints` (line 109). -/
def sortNwpsByT (l : List NwpsPoint) : List NwpsPoint :=
  l.insertionSort NwpsPoint.tle

/-- The de-dup sweep of `extractPoints` (lines 110-117): walk the sorted
points, skip a point whose epoch-ms equals the last KEPT point's, keep the
first of each run of equal timestamps (`lastMs` starts as `null`). -/
def dedupGo (lastMs : Option Int) : List NwpsPoint → List NwpsPoint
  | [] => []
  | p :: ps => if some p.t = lastMs then dedupGo lastMs ps else p :: dedupGo (some p.t) ps

/-- The normalization (sort + de-dup by time) of `extractPoints`
(lines 108-119); the preceding duck-typed payload flattening is external
payload parsing, out of core scope. -/
def extractPointsNormalize (points : List NwpsPoint) : List NwpsPoint :=
  dedupGo none (sortNwpsByT points)

/-- The constant `windowPts = 6` (`findPeaks`, line 131). -/
def WINDOW_PTS : Nat := 6

/-- The prominence gate of `findPeaks` (lines 141-147): `localMin` is the
minimum `navd88` over the index window `[max 0 (i-w), min (len-1) (i+w)]`
(seeded with `Infinity`, which on an empty window makes
`p.navd88 - localMin < minProm` hold and discards the candidate), and the
candidate survives iff `p.navd88 - localMin ≥ minProm`. -/
def localMinOk (pts : List NwpsPoint) (w : Nat) (minProm : ℚ) (i : Nat)
    (p : NwpsPoint) : Bool :=
  let lo := i - w
  let hi := min (pts.length - 1) (i + w)
  match ((pts.drop lo).take (hi + 1 - lo)).map NwpsPoint.navd88 with
  | [] => false
  | x :: xs => decide (minProm ≤ p.navd88 - xs.foldl min x)

/-- The candidate test of `findPeaks` (lines 133-147): an interior index
whose value is `≥` both neighbours and which passes the prominence gate. -/
def candidateAt (pts : List NwpsPoint) (w : Nat) (minProm : ℚ) (i : Nat) :
    Option NwpsPoint :=
  match pts.get? (i-1), pts.get? i, pts.get? (i+1) with
  | some prev, some p, some next =>
    if prev.navd88 ≤ p.navd88 ∧ next.navd88 ≤ p.navd88 then
      if localMinOk pts w minProm i p then some p else none
    else none
  | _, _, _ => none

/-- The separation sweep of `findPeaks` (lines 149-158): if the candidate
is closer than `minSepMs` to the last accepted peak, replace that peak in
place when the candidate is strictly higher, else skip; otherwise push. -/
def sepStep (minSepMs : ℚ) (peaks : List NwpsPoint) (p : NwpsPoint) : List NwpsPoint :=
  match peaks.getLast? with
  | none => peaks ++ [p]
  | some last =>
    if ((p.t - last.t : Int) : ℚ) < minSepMs then
      (if last.navd88 < p.navd88 then peaks.dropLast ++ [p] else peaks)
    else peaks ++ [p]

/-- The detector `findPeaks(points, {minSeparationHours, minProminenceFt})`
(lines 127-162), with the neighbourhood radius exposed as a parameter. -/
def findPeaksWith (w : Nat) (minSepH minProm : ℚ) (pts : List NwpsPoint) :
    List NwpsPoint :=
  (List.range' 1 (pts.length - 2)).foldl
    (fun peaks i =>
      match candidateAt pts w minProm i with
      | some p => sepStep (minSepH * 3600 * 1000) peaks p
      | none => peaks) []

/-- The detector `findPeaks` with the source defaults `minSeparationHours = 5`,
`minProminenceFt = 0.05`, `windowPts = 6`. -/
def findPeaks (pts : List NwpsPoint) : List NwpsPoint :=
  findPeaksWith WINDOW_PTS 5 (1/20) pts

/-- A USGS IV observation point `{t, v}` of the declustering script. -/
structure ObsPoint where
  t : Int
  v : ℚ
deriving DecidableEq, Repr

/-- Time order for `.sort((a, b) => toEpochMs(a.t) - toEpochMs(b.t))`. -/
def ObsPoint.tle (a b : ObsPoint) : Prop := a.t ≤ b.t

instance : DecidableRel ObsPoint.tle := fun a b => Int.decLe a.t b.t

instance : IsTotal ObsPoint ObsPoint.tle := ⟨fun a b => Int.le_total a.t b.t⟩

instance : IsTrans ObsPoint ObsPoint.tle := ⟨fun _ _ _ h1 h2 => le_trans h1 h2⟩

def sortObsByT (l : List ObsPoint) : List ObsPoint :=
  l.insertionSort ObsPoint.tle

/-- The `seen`-set sweep of `uniqSortByTime` (lines 78-87): keep the first
occurrence of each `` `${p.t}|${p.v}` `` key; the key is the `(t, v)` pair
(the encoding is injective). -/
def dedupPairsGo (seen : List (Int × ℚ)) : List ObsPoint → List ObsPoint
  | [] => []
  | p :: ps =>
    if (p.t, p.v) ∈ seen then dedupPairsGo seen ps
    else p :: dedupPairsGo ((p.t, p.v) :: seen) ps

/-- The normalization `uniqSortByTime(points)` (lines 78-90): de-dup exact `(t, v)` pairs,
then sort by time. -/
def uniqSortByTime (points : List ObsPoint) : List ObsPoint :=
  sortObsByT (dedupPairsGo [] points)

/-- The cluster builder of `declusterMax` (lines 102-115): consecutive
sorted points at most `minSepMs` apart share a cluster; `prev` is the
previous point of the sorted array, `cur` the open cluster. -/
def clustersGo (sepMs : ℚ) : List ObsPoint → ObsPoint → List ObsPoint → List (List ObsPoint)
  | [], _, cur => [cur]
  | p :: rest, prev, cur =>
    if ((p.t - prev.t : Int) : ℚ) ≤ sepMs then clustersGo sepMs rest p (cur ++ [p])
    else cur :: clustersGo sepMs rest p [p]

/-- The per-cluster pick (lines 118-122): `max = c[0]`, replaced only by a
strictly greater value, so the earliest maximum wins. -/
def clusterMax : List ObsPoint → Option ObsPoint
  | [] => none
  | m :: rest => some (rest.foldl (fun mx p => if mx.v < p.v then p else mx) m)

/-- The detector `declusterMax(points, minSepMinutes)` (lines 96-127): sort, cluster by
gaps `≤ minSepMinutes`, keep each cluster's maximum, sort the peaks. -/
def declusterMax (points : List ObsPoint) (minSepMinutes : ℚ) : List ObsPoint :=
  match sortObsByT points with
  | [] => []
  | p0 :: rest =>
    sortObsByT ((clustersGo (minSepMinutes * 60 * 1000) rest p0 [p0]).filterMap clusterMax)

/-! ### C8: normalization and duplicate timestamps -/

/-- C8 counterexample: `uniqSortByTime` keys its seen-set by the pair
`` `${t}|${v}` ``, so two samples at the same instant with different values
both survive normalization in `update_peaks_navd88.js`. -/
theorem normalization_dedup_counterexample :
    uniqSortByTime [ObsPoint.mk 0 1, ObsPoint.mk 0 2]
      = [ObsPoint.mk 0 1, ObsPoint.mk 0 2] ∧
    ¬ (uniqSortByTime [ObsPoint.mk 0 1, ObsPoint.mk 0 2]).Pairwise
        (fun a b => a.t ≠ b.t) := by
  exact ⟨by decide, by decide⟩

theorem dedupGo_spec :
    ∀ (ps : List NwpsPoint), ps.Pairwise NwpsPoint.tle →
      ∀ (last : Option Int), (∀ p ∈ ps, ∀ x, last = some x → x ≤ p.t) →
      (dedupGo last ps).Pairwise (fun a b => a.t < b.t) ∧
      (∀ q ∈ dedupGo last ps, ∀ x, last = some x → x < q.t) := by
  intro ps
  induction ps with
  | nil =>
    intro _ last _
    exact ⟨List.Pairwise.nil, fun q hq => absurd hq (List.not_mem_nil q)⟩
  | cons p ps ih =>
    intro hs last hbar
    obtain ⟨hall, hrest⟩ := List.pairwise_cons.mp hs
    rw [dedupGo]
    by_cases heq : some p.t = last
    · rw [if_pos heq]
      refine ih hrest last ?_
      intro q hq x hx
      rw [hx] at heq
      have hpx : p.t = x := Option.some_injective _ heq
      rw [← hpx]
      exact hall q hq
    · rw [if_neg heq]
      obtain ⟨hpair', hbar'⟩ := ih hrest (some p.t)
        (fun q hq x hx => by rw [← Option.some_injective _ hx]; exact hall q hq)
      refine ⟨List.pairwise_cons.mpr ⟨fun q hq => hbar' q hq p.t rfl, hpair'⟩, ?_⟩
      intro q hq x hx
      rcases List.mem_cons.mp hq with rfl | hq'
      · have hle : x ≤ q.t := hbar q (List.mem_cons_self q ps) x hx
        have hne : q.t ≠ x := fun hc => heq (by rw [hx, hc])
        omega
      · have hlt : p.t < q.t := hbar' q hq' p.t rfl
        have hle : x ≤ p.t := hbar p (List.mem_cons_self p ps) x hx
        omega

theorem dedupPairsGo_spec :
    ∀ (ps : List ObsPoint) (seen : List (Int × ℚ)),
      ((dedupPairsGo seen ps).map (fun p => (p.t, p.v))).Nodup ∧
      (∀ q ∈ dedupPairsGo seen ps, (q.t, q.v) ∉ seen) := by
  intro ps
  induction ps with
  | nil =>
    intro seen
    exact ⟨List.nodup_nil, fun q hq => absurd hq (List.not_mem_nil q)⟩
  | cons p ps ih =>
    intro seen
    rw [dedupPairsGo]
    by_cases hmem : (p.t, p.v) ∈ seen
    · rw [if_pos hmem]; exact ih seen
    · rw [if_neg hmem]
      obtain ⟨hnodup', hnots'⟩ := ih ((p.t, p.v) :: seen)
      constructor
      · rw [List.map_cons]
        refine List.Pairwise.cons ?_ hnodup'
        intro pr hpr
        obtain ⟨q, hq, hqe⟩ := List.mem_map.mp hpr
        have := hnots' q hq
        intro hcontra
        rw [← hqe] at hcontra
        exact this (by rw [← hcontra]; exact List.mem_cons_self _ _)
      · intro q hq
        rcases List.mem_cons.mp hq with rfl | hq'
        · exact hmem
        · exact fun hc => hnots' q hq' (List.mem_cons_of_mem _ hc)

/-- C8 amended: the Sea Bright detector's normalization (`extractPoints`
sort + de-dup) guarantees strictly increasing timestamps, with the
first-seen sample kept deterministically; the declustering script's
`uniqSortByTime` only guarantees that no two samples share both timestamp
and value — samples at the same instant with different values survive. -/
theorem normalization_dedup_amended (nwps : List NwpsPoint) (obs : List ObsPoint) :
    (extractPointsNormalize nwps).Pairwise (fun a b => a.t < b.t) ∧
    ((uniqSortByTime obs).map (fun p => (p.t, p.v))).Nodup := by
  constructor
  · rw [extractPointsNormalize]
    exact (dedupGo_spec (sortNwpsByT nwps)
      (List.sorted_insertionSort NwpsPoint.tle nwps) none
      (fun p _ x hx => absurd hx (by simp))).1
  · rw [uniqSortByTime]
    have hperm : (sortObsByT (dedupPairsGo [] obs)).Perm (dedupPairsGo [] obs) :=
      List.perm_insertionSort ObsPoint.tle _
    have hmap := hperm.map (fun p : ObsPoint => (p.t, p.v))
    exact hmap.nodup_iff.mpr (dedupPairsGo_spec obs []).1

/-! ### C10: tie-breaking keeps the earlier peak -/

theorem clusterMax_of_ne_nil {cl : List ObsPoint} (h : cl ≠ []) :
    ∃ m, clusterMax cl = some m := by
  cases cl with
  | nil => exact absurd rfl h
  | cons m0 rest => exact ⟨_, rfl⟩

theorem clusterMax_spec {cl : List ObsPoint} {m : ObsPoint}
    (h : clusterMax cl = some m) :
    (∀ q ∈ cl, q.v ≤ m.v) ∧ ∃ l1 l2, cl = l1 ++ m :: l2 ∧ ∀ q ∈ l1, q.v < m.v := by
  cases cl with
  | nil => exact absurd h (by rw [clusterMax]; simp)
  | cons m0 rest =>
    rw [clusterMax] at h
    obtain ⟨m', hm', hall, hble, hdec⟩ := foldl_pickMax_spec ObsPoint.v rest m0
    rw [hm'] at h
    have hmm : m' = m := Option.some_injective _ h
    subst hmm
    constructor
    · intro q hq
      rcases List.mem_cons.mp hq with rfl | hqs
      · exact hble
      · exact hall q hqs
    · rcases hdec with rfl | ⟨l1, l2, hsplit, hlt, hl1⟩
      · exact ⟨[], rest, rfl, by simp⟩
      · exact ⟨m0 :: l1, l2, by rw [hsplit]; rfl, fun q hq => by
          rcases List.mem_cons.mp hq with rfl | hq1
          · exact hlt
          · exact hl1 q hq1⟩

theorem sepStep_of_some {s : ℚ} {peaks : List NwpsPoint} {p last : NwpsPoint}
    (h : peaks.getLast? = some last) :
    sepStep s peaks p =
      if ((p.t - last.t : Int) : ℚ) < s then
        (if last.navd88 < p.navd88 then peaks.dropLast ++ [p] else peaks)
      else peaks ++ [p] := by
  rw [sepStep, h]

theorem sepStep_of_none {s : ℚ} {peaks : List NwpsPoint} {p : NwpsPoint}
    (h : peaks.getLast? = none) :
    sepStep s peaks p = peaks ++ [p] := by
  rw [sepStep, h]

/-- C10: when a candidate lands within `minSeparation` of the last
accepted peak, a tie in value keeps the earlier peak — the stored peak is
replaced only by a strictly greater value; and within a decluster cluster
the pick is the earliest maximum-valued point. -/
theorem tie_break_earlier (s : ℚ) (peaks : List NwpsPoint) (last : NwpsPoint)
    (hlast : peaks.getLast? = some last) :
    (∀ p : NwpsPoint, ((p.t - last.t : Int) : ℚ) < s → last.navd88 = p.navd88 →
      sepStep s peaks p = peaks) ∧
    (∀ p : NwpsPoint, ((p.t - last.t : Int) : ℚ) < s → last.navd88 < p.navd88 →
      sepStep s peaks p = peaks.dropLast ++ [p]) ∧
    (∀ (cl : List ObsPoint) (m : ObsPoint), clusterMax cl = some m →
      (∀ q ∈ cl, q.v ≤ m.v) ∧ ∃ l1 l2, cl = l1 ++ m :: l2 ∧ ∀ q ∈ l1, q.v < m.v) := by
  refine ⟨?_, ?_, fun cl m h => clusterMax_spec h⟩
  · intro p hclose hequal
    rw [sepStep_of_some hlast, if_pos hclose, if_neg (by rw [hequal]; exact lt_irrefl _)]
  · intro p hclose hgt
    rw [sepStep_of_some hlast, if_pos hclose, if_pos hgt]

theorem tie_break_earlier_witness :
    sepStep 10000 [NwpsPoint.mk 0 0 5] (NwpsPoint.mk 1000 0 5)
      = [NwpsPoint.mk 0 0 5] ∧
    sepStep 10000 [NwpsPoint.mk 0 0 5] (NwpsPoint.mk 1000 0 6)
      = [NwpsPoint.mk 0 0 5].dropLast ++ [NwpsPoint.mk 1000 0 6] ∧
    ((∀ q ∈ [ObsPoint.mk 0 7, ObsPoint.mk 5 7, ObsPoint.mk 9 3],
        q.v ≤ (ObsPoint.mk 0 7).v) ∧
      ∃ l1 l2, [ObsPoint.mk 0 7, ObsPoint.mk 5 7, ObsPoint.mk 9 3]
          = l1 ++ (ObsPoint.mk 0 7) :: l2 ∧ ∀ q ∈ l1, q.v < (ObsPoint.mk 0 7).v) :=
  ⟨(tie_break_earlier 10000 [NwpsPoint.mk 0 0 5] (NwpsPoint.mk 0 0 5) (by decide)).1
      (NwpsPoint.mk 1000 0 5) (by norm_num) (by decide),
   (tie_break_earlier 10000 [NwpsPoint.mk 0 0 5] (NwpsPoint.mk 0 0 5) (by decide)).2.1
      (NwpsPoint.mk 1000 0 6) (by norm_num) (by decide),
   (tie_break_earlier 10000 [NwpsPoint.mk 0 0 5] (NwpsPoint.mk 0 0 5) (by decide)).2.2
      [ObsPoint.mk 0 7, ObsPoint.mk 5 7, ObsPoint.mk 9 3] (ObsPoint.mk 0 7) (by decide)⟩

/-! ### C7: the separation invariant -/

/-- Pairs that are in time order and at least `s` ms apart. -/
def sepGood (s : ℚ) (a b : NwpsPoint) : Prop :=
  a.t < b.t ∧ s ≤ ((b.t - a.t : Int) : ℚ)

theorem pairwise_getLast {α : Type} {R : α → α → Prop} {l : List α} {last : α}
    (hp : l.Pairwise R) (hl : l.getLast? = some last) :
    ∀ q ∈ l, q = last ∨ R q last := by
  intro q hq
  have hdecomp : l.dropLast ++ [last] = l :=
    List.dropLast_append_getLast? last (by rw [Option.mem_def]; exact hl)
  rw [← hdecomp] at hq hp
  rcases List.mem_append.mp hq with h1 | h2
  · exact Or.inr ((List.pairwise_append.mp hp).2.2 q h1 last (List.mem_singleton.mpr rfl))
  · exact Or.inl (List.mem_singleton.mp h2)

theorem sepStep_inv {s : ℚ} {peaks : List NwpsPoint} {p : NwpsPoint}
    (hpair : peaks.Pairwise (sepGood s)) (hlt : ∀ q ∈ peaks, q.t < p.t) :
    (sepStep s peaks p).Pairwise (sepGood s) ∧
    ∀ u ∈ sepStep s peaks p, u ∈ peaks ∨ u = p := by
  cases hlast : peaks.getLast? with
  | none =>
    have hnil : peaks = [] := List.getLast?_eq_none_iff.mp hlast
    subst hnil
    rw [sepStep_of_none hlast]
    exact ⟨List.pairwise_singleton _ _, fun u hu => Or.inr (List.mem_singleton.mp hu)⟩
  | some last =>
    have hlastmem : last ∈ peaks := by
      have hdecomp : peaks.dropLast ++ [last] = peaks :=
        List.dropLast_append_getLast? last (by rw [Option.mem_def]; exact hlast)
      rw [← hdecomp]
      exact List.mem_append.mpr (Or.inr (List.mem_singleton.mpr rfl))
    rw [sepStep_of_some hlast]
    by_cases hclose : ((p.t - last.t : Int) : ℚ) < s
    · rw [if_pos hclose]
      by_cases hhigher : last.navd88 < p.navd88
      · rw [if_pos hhigher]
        have hdecomp : peaks.dropLast ++ [last] = peaks :=
          List.dropLast_append_getLast? last (by rw [Option.mem_def]; exact hlast)
        constructor
        · rw [List.pairwise_append]
          refine ⟨hpair.sublist (List.dropLast_sublist peaks),
            List.pairwise_singleton _ _, ?_⟩
          intro a ha b hb
          rw [List.mem_singleton.mp hb]
          have hamem : a ∈ peaks := (List.dropLast_sublist peaks).subset ha
          have hgood : sepGood s a last := by
            have hp' : (peaks.dropLast ++ [last]).Pairwise (sepGood s) := by
              rw [hdecomp]; exact hpair
            exact (List.pairwise_append.mp hp').2.2 a ha last (List.mem_singleton.mpr rfl)
          refine ⟨hlt a hamem, ?_⟩
          have hmono : (last.t - a.t : Int) ≤ (p.t - a.t : Int) := by
            have := hlt last hlastmem
            omega
          calc s ≤ ((last.t - a.t : Int) : ℚ) := hgood.2
            _ ≤ ((p.t - a.t : Int) : ℚ) := Int.cast_le.mpr hmono
        · intro u hu
          rcases List.mem_append.mp hu with h1 | h2
          · exact Or.inl ((List.dropLast_sublist peaks).subset h1)
          · exact Or.inr (List.mem_singleton.mp h2)
      · rw [if_neg hhigher]
        exact ⟨hpair, fun u hu => Or.inl hu⟩
    · rw [if_neg hclose]
      constructor
      · rw [List.pairwise_append]
        refine ⟨hpair, List.pairwise_singleton _ _, ?_⟩
        intro a ha b hb
        rw [List.mem_singleton.mp hb]
        refine ⟨hlt a ha, ?_⟩
        rcases pairwise_getLast hpair hlast a ha with rfl | hgood
        · exact not_lt.mp hclose
        · have hmono : (p.t - last.t : Int) + 1 ≤ (p.t - a.t : Int) := by
            have := hgood.1
            omega
          have hc1 : ((p.t - last.t : Int) : ℚ) ≤ ((p.t - a.t : Int) : ℚ) :=
            Int.cast_le.mpr (by omega)
          exact le_trans (not_lt.mp hclose) hc1
      · intro u hu
        rcases List.mem_append.mp hu with h1 | h2
        · exact Or.inl h1
        · exact Or.inr (List.mem_singleton.mp h2)

theorem candidateAt_get {pts : List NwpsPoint} {w : Nat} {minProm : ℚ} {i : Nat}
    {p : NwpsPoint} (h : candidateAt pts w minProm i = some p) :
    pts.get? i = some p := by
  rw [candidateAt] at h
  cases hprev : pts.get? (i-1) with
  | none => rw [hprev] at h; exact absurd h (by simp)
  | some prev =>
    rw [hprev] at h
    cases hcur : pts.get? i with
    | none => rw [hcur] at h; exact absurd h (by simp)
    | some q =>
      rw [hcur] at h
      cases hnext : pts.get? (i+1) with
      | none => rw [hnext] at h; exact absurd h (by simp)
      | some next =>
        rw [hnext] at h
        simp only at h
        by_cases h1 : prev.navd88 ≤ q.navd88 ∧ next.navd88 ≤ q.navd88
        · rw [if_pos h1] at h
          by_cases h2 : localMinOk pts w minProm i q = true
          · rw [if_pos h2] at h
            rw [Option.some_injective _ h]
          · rw [if_neg h2] at h
            exact absurd h (by simp)
        · rw [if_neg h1] at h
          exact absurd h (by simp)

theorem findPeaksGo_inv (pts : List NwpsPoint) (w : Nat) (minProm s : ℚ)
    (hps : pts.Pairwise (fun a b => a.t < b.t)) :
    ∀ (k a : Nat) (peaks : List NwpsPoint),
      peaks.Pairwise (sepGood s) →
      (∀ q ∈ peaks, ∀ j, a ≤ j → ∀ p, candidateAt pts w minProm j = some p → q.t < p.t) →
      ((List.range' a k).foldl (fun peaks i =>
          match candidateAt pts w minProm i with
          | some p => sepStep s peaks p
          | none => peaks) peaks).Pairwise (sepGood s) := by
  intro k
  induction k with
  | zero => intro a peaks hpair _; exact hpair
  | succ k ih =>
    intro a peaks hpair hfut
    rw [List.range'_succ, List.foldl_cons]
    cases hcand : candidateAt pts w minProm a with
    | none =>
      simp only [hcand]
      exact ih (a+1) peaks hpair
        (fun q hq j hj p hp => hfut q hq j (by omega) p hp)
    | some p =>
      simp only [hcand]
      have hlt : ∀ q ∈ peaks, q.t < p.t :=
        fun q hq => hfut q hq a (le_refl a) p hcand
      obtain ⟨hpair', hmem'⟩ := sepStep_inv hpair hlt
      refine ih (a+1) (sepStep s peaks p) hpair' ?_
      intro q hq j hj p' hp'
      rcases hmem' q hq with hold | rfl
      · exact hfut q hold j (by omega) p' hp'
      · -- q = p = pts[a]; p' = pts[j]; a < j, so p.t < p'.t by strict sorting
        obtain ⟨ha, hget⟩ := List.get?_eq_some.mp (candidateAt_get hcand)
        obtain ⟨hj', hget'⟩ := List.get?_eq_some.mp (candidateAt_get hp')
        have := List.pairwise_iff_getElem.mp hps a j ha hj' (by omega)
        rw [List.get_eq_getElem] at hget hget'
        rw [hget, hget'] at this
        exact this

/-- The clusters' elements all come from the inputs. -/
theorem clustersGo_mem (sepMs : ℚ) :
    ∀ (rest : List ObsPoint) (prev : ObsPoint) (cur : List ObsPoint),
      ∀ cl ∈ clustersGo sepMs rest prev cur, ∀ x ∈ cl, x ∈ cur ++ rest := by
  intro rest
  induction rest with
  | nil =>
    intro prev cur cl hcl x hx
    rw [clustersGo] at hcl
    rw [List.mem_singleton.mp hcl] at hx
    exact List.mem_append.mpr (Or.inl hx)
  | cons p rest ih =>
    intro prev cur cl hcl x hx
    rw [clustersGo] at hcl
    by_cases hclose : ((p.t - prev.t : Int) : ℚ) ≤ sepMs
    · rw [if_pos hclose] at hcl
      have := ih p (cur ++ [p]) cl hcl x hx
      rw [List.append_assoc] at this
      simpa using this
    · rw [if_neg hclose] at hcl
      rcases List.mem_cons.mp hcl with rfl | hcl'
      · exact List.mem_append.mpr (Or.inl hx)
      · have := ih p [p] cl hcl' x hx
        simp only [List.singleton_append] at this
        rcases List.mem_cons.mp this with rfl | hx'
        · exact List.mem_append.mpr (Or.inr (List.mem_cons_self x rest))
        · exact List.mem_append.mpr (Or.inr (List.mem_cons_of_mem p hx'))

theorem clusterMax_mem {cl : List ObsPoint} {m : ObsPoint}
    (h : clusterMax cl = some m) : m ∈ cl := by
  obtain ⟨-, l1, l2, hsplit, -⟩ := clusterMax_spec h
  rw [hsplit]
  exact List.mem_append.mpr (Or.inr (List.mem_cons_self m l2))

theorem clustersGo_sep (sepMs : ℚ) :
    ∀ (rest : List ObsPoint) (prev : ObsPoint) (cur : List ObsPoint),
      cur ≠ [] → cur.getLast? = some prev →
      (cur ++ rest).Pairwise ObsPoint.tle →
      ((clustersGo sepMs rest prev cur).filterMap clusterMax).Pairwise
        (fun a b => ObsPoint.tle a b ∧ sepMs < ((b.t - a.t : Int) : ℚ)) := by
  intro rest
  induction rest with
  | nil =>
    intro prev cur hne hlast hs
    rw [clustersGo, List.filterMap_cons]
    cases hcm : clusterMax cur with
    | none => exact List.Pairwise.nil
    | some m => exact List.pairwise_singleton _ _
  | cons p rest ih =>
    intro prev cur hne hlast hs
    rw [clustersGo]
    by_cases hclose : ((p.t - prev.t : Int) : ℚ) ≤ sepMs
    · rw [if_pos hclose]
      refine ih p (cur ++ [p]) (by simp) (List.getLast?_concat cur) ?_
      rw [List.append_assoc]
      simpa using hs
    · rw [if_neg hclose]
      rw [List.filterMap_cons]
      obtain ⟨mcur, hmcur⟩ := clusterMax_of_ne_nil hne
      rw [hmcur]
      have hcurpair : cur.Pairwise ObsPoint.tle := (List.pairwise_append.mp hs).1
      have htailpair : (p :: rest).Pairwise ObsPoint.tle := (List.pairwise_append.mp hs).2.1
      have hcross := (List.pairwise_append.mp hs).2.2
      refine List.Pairwise.cons ?_ (ih p [p] (by simp) (by simp) (by simpa using htailpair))
      intro m' hm'
      obtain ⟨cl, hcl, hclm⟩ := List.mem_filterMap.mp hm'
      have hm'cl : m' ∈ cl := clusterMax_mem hclm
      have hm'tail : m' ∈ p :: rest := by
        have := clustersGo_mem sepMs rest p [p] cl hcl m' hm'cl
        simpa using this
      have hmcurmem : mcur ∈ cur := clusterMax_mem hmcur
      have hmcur_le_prev : mcur.t ≤ prev.t := by
        rcases pairwise_getLast hcurpair hlast mcur hmcurmem with rfl | htle
        · exact le_refl _
        · exact htle
      have hp_le_m' : p.t ≤ m'.t := by
        rcases List.mem_cons.mp hm'tail with rfl | hm'r
        · exact le_refl _
        · exact (List.pairwise_cons.mp htailpair).1 m' hm'r
      refine ⟨hcross mcur hmcurmem m' hm'tail, ?_⟩
      have hgap : sepMs < ((p.t - prev.t : Int) : ℚ) := lt_of_not_le hclose
      have hmono : (p.t - prev.t : Int) ≤ (m'.t - mcur.t : Int) := by omega
      exact lt_of_lt_of_le hgap (Int.cast_le.mpr hmono)

/-- C7: any two peaks of the local-maxima detector are at least
`minSeparation` apart (on the time-ordered, duplicate-free sample
sequences the detector is specified for), for every configuration; and the
declustering detector's peaks are at least `minSepMinutes` apart for every
input and configuration. -/
theorem separation_invariant (w : Nat) (minSepH minProm : ℚ) (pts : List NwpsPoint)
    (hps : pts.Pairwise (fun a b => a.t < b.t))
    (points : List ObsPoint) (minSepMinutes : ℚ) :
    (findPeaksWith w minSepH minProm pts).Pairwise
      (fun a b => minSepH * 3600 * 1000 ≤ ((b.t - a.t : Int) : ℚ)) ∧
    (declusterMax points minSepMinutes).Pairwise
      (fun a b => minSepMinutes * 60 * 1000 ≤ ((b.t - a.t : Int) : ℚ)) := by
  constructor
  · have := findPeaksGo_inv pts w minProm (minSepH * 3600 * 1000) hps
      (pts.length - 2) 1 [] List.Pairwise.nil
      (fun q hq => absurd hq (List.not_mem_nil q))
    exact this.imp (fun h => h.2)
  · rw [declusterMax]
    cases hsort : sortObsByT points with
    | nil => exact List.Pairwise.nil
    | cons p0 rest =>
      show (sortObsByT ((clustersGo (minSepMinutes * 60 * 1000) rest p0 [p0]).filterMap
          clusterMax)).Pairwise
        (fun a b => minSepMinutes * 60 * 1000 ≤ ((b.t - a.t : Int) : ℚ))
      have hs : (p0 :: rest).Pairwise ObsPoint.tle := by
        rw [← hsort]
        exact List.sorted_insertionSort ObsPoint.tle points
      have hmax := clustersGo_sep (minSepMinutes * 60 * 1000) rest p0 [p0]
        (by simp) (by simp) (by simpa using hs)
      have hmax_sorted :
          ((clustersGo (minSepMinutes * 60 * 1000) rest p0 [p0]).filterMap
            clusterMax).Sorted ObsPoint.tle :=
        hmax.imp (fun h => h.1)
      rw [show sortObsByT ((clustersGo (minSepMinutes * 60 * 1000) rest p0 [p0]).filterMap
          clusterMax) = (clustersGo (minSepMinutes * 60 * 1000) rest p0 [p0]).filterMap
          clusterMax from hmax_sorted.insertionSort_eq]
      exact hmax.imp (fun h => le_of_lt h.2)

theorem separation_invariant_witness :
    (findPeaksWith 6 1 0 [NwpsPoint.mk 0 0 1, NwpsPoint.mk 60000 0 2,
        NwpsPoint.mk 120000 0 1]).Pairwise
      (fun a b => (1 : ℚ) * 3600 * 1000 ≤ ((b.t - a.t : Int) : ℚ)) ∧
    (declusterMax [ObsPoint.mk 0 1, ObsPoint.mk 1000 3] 300).Pairwise
      (fun a b => (300 : ℚ) * 60 * 1000 ≤ ((b.t - a.t : Int) : ℚ)) :=
  separation_invariant 6 1 0
    [NwpsPoint.mk 0 0 1, NwpsPoint.mk 60000 0 2, NwpsPoint.mk 120000 0 1]
    (by decide) [ObsPoint.mk 0 1, ObsPoint.mk 1000 3] 300

end SeaBright
